import Mathlib

/-!
Verification development for the dependency-graph analysis core of the
graphyycode repository.  The definitions below are shallow embeddings of the
TypeScript source (graph builder, reference extractor/resolver, tree builder,
role classifier, content filter and the job state machine of the analyse
route).  Strings are modelled by Lean `String`; the JavaScript string
primitives used by the source (`split`, `join`, `includes`, `startsWith`,
`slice`, `endsWith`-style regex tests) are modelled by executable functions on
the underlying character lists.
-/

namespace Graphyy

/-- Model of JavaScript `str.split(sep)` for a single-character separator,
on character lists: splits at every occurrence of `sep`; never returns `[]`;
`"".split(sep) = [""]`. -/

def splitCh (sep : Char) : List Char → List (List Char)
  | [] => [[]]
  | c :: cs =>
    match splitCh sep cs with
    | [] => [[]]
    | g :: gs => if c = sep then [] :: g :: gs else (c :: g) :: gs

/-- Model of JavaScript `arr.join(sep)` on character-list groups. -/

def joinCh (sep : Char) : List (List Char) → List Char
  | [] => []
  | [g] => g
  | g :: g' :: gs => g ++ sep :: joinCh sep (g' :: gs)

/-- Model of `pat.isPrefixOf s` on character lists (used to model JavaScript
`String.prototype.startsWith`). -/

def strStartsL : List Char → List Char → Bool
  | [], _ => true
  | _ :: _, [] => false
  | a :: as, b :: bs => a == b && strStartsL as bs

/-- Model of JavaScript `s.startsWith(pre)`. -/

def strStarts (s pre : String) : Bool := strStartsL pre.data s.data

/-- Model of JavaScript `s.includes(pat)` (substring containment). -/

def subListL (pat : List Char) : List Char → Bool
  | [] => strStartsL pat []
  | c :: t => strStartsL pat (c :: t) || subListL pat t

/-- Model of JavaScript `s.includes(pat)` on `String`s. -/

def hasSub (s pat : String) : Bool := subListL pat.data s.data

/-- Model of JavaScript `s.slice(n)` (drop the first `n` characters). -/

def strDrop (s : String) (n : Nat) : String := ⟨s.data.drop n⟩

/-- Model of `filePath.split("/")` producing `String` segments. -/

def splitSlash (s : String) : List String :=
  (splitCh '/' s.data).map (fun g => (⟨g⟩ : String))

/-- Model of `parts.join("/")`. -/

def joinSlash (l : List String) : String :=
  ⟨joinCh '/' (l.map String.data)⟩

/-- A segment string is slash-free. -/

def SegFree (x : String) : Prop := '/' ∉ x.data

/-- Model of JavaScript `s.toLowerCase()` (character-wise lower-casing; the
inputs compared in this development are ASCII). -/

def toLowerStr (s : String) : String := ⟨s.data.map Char.toLower⟩

/-- Model of `filePath.split(".").pop()?.toLowerCase()` with the source's
`?? ""`/truthiness conventions: the lower-cased final dot-segment. -/

def lastExt (p : String) : String :=
  toLowerStr ⟨(splitCh '.' p.data).getLastD []⟩

/-- First-occurrence deduplication, modelling `[...new Set(list)]`. -/

def dedupFirst (seen : List String) : List String → List String
  | [] => []
  | x :: xs =>
    if seen.contains x then dedupFirst seen xs
    else x :: dedupFirst (x :: seen) xs

/-- Model of `s.replace(/\/\.\//g, "/")`: a single left-to-right pass that
replaces each occurrence of `/./` by `/` and resumes scanning after the
replacement (matching the JavaScript global-regex semantics, which does not
re-scan overlapping occurrences). -/

def collapseDotSlashL : List Char → List Char
  | '/' :: '.' :: '/' :: rest => '/' :: collapseDotSlashL rest
  | c :: rest => c :: collapseDotSlashL rest
  | [] => []

/-- Model of `s.replace(/\/{2,}/g, "/")`: every maximal run of two or more
slashes becomes a single slash (equivalently, consecutive duplicate slashes
are collapsed). -/

def collapseSlashesL : List Char → List Char
  | [] => []
  | [c] => [c]
  | c₁ :: c₂ :: rest =>
    if c₁ = '/' ∧ c₂ = '/' then collapseSlashesL (c₂ :: rest)
    else c₁ :: collapseSlashesL (c₂ :: rest)

/-- Model of `s.replace(/^\//, "")`: drop one leading slash. -/

def stripLeadSlashL : List Char → List Char
  | '/' :: rest => rest
  | l => l

/-! Content filter (worker `shouldFetchContent`, route `shouldFetch`). -/

/-- `MAX_FILE_SIZE_BYTES` from the worker (equal to `MAX_FILE_SIZE` in the
analyse route). -/

def MAX_FILE_SIZE_BYTES : Nat := 100000

/-- `ANALYSABLE_EXTENSIONS` (identical in the worker and the analyse route). -/

def ANALYSABLE_EXTENSIONS : List String :=
  ["ts", "tsx", "js", "jsx", "mjs", "cjs",
   "py", "go", "rs", "rb", "java", "cs", "cpp", "c"]

/-- Shallow embedding of the worker function `shouldFetchContent`.  The
JavaScript guard `fileSize && fileSize > MAX` is truthiness-equivalent to
`fileSize > MAX` for natural sizes (0 is falsy but also not greater). -/

def shouldFetchContent (filePath : String) (fileSize : Option Nat) : Bool :=
  if (match fileSize with
      | some n => decide (n > MAX_FILE_SIZE_BYTES)
      | none => false) then false
  else
    let ext := lastExt filePath
    (ext != "") && ANALYSABLE_EXTENSIONS.contains ext

/-- The analyse route defines `shouldFetch` with a body identical to the
worker `shouldFetchContent`. -/

def shouldFetch (path : String) (size : Option Nat) : Bool :=
  shouldFetchContent path size

/-! Language detection (`detectLanguage`). -/

/-- The `langMap` record literal inside `detectLanguage`, modelled as a
total table.  As with `IMPORT_PATTERNS`, the object-literal lookup consults
the prototype chain, so at the two lower-cased extensions `constructor` and
`__proto__` the real `langMap[ext]` yields an inherited truthy
`Object.prototype` member (a non-string) rather than `undefined`; the
`language` field is not constrained by any theorem in this development, and
the table is kept total with `none` at those two keys. -/

def langMap (ext : String) : Option String :=
  if ext = "ts" then some "TypeScript" else if ext = "tsx" then some "TypeScript"
  else if ext = "js" then some "JavaScript" else if ext = "jsx" then some "JavaScript"
  else if ext = "py" then some "Python" else if ext = "go" then some "Go"
  else if ext = "rs" then some "Rust" else if ext = "rb" then some "Ruby"
  else if ext = "java" then some "Java" else if ext = "cs" then some "C#"
  else if ext = "cpp" then some "C++" else if ext = "c" then some "C"
  else if ext = "md" then some "Markdown" else if ext = "json" then some "JSON"
  else if ext = "yaml" then some "YAML" else if ext = "yml" then some "YAML"
  else if ext = "css" then some "CSS" else if ext = "scss" then some "SCSS"
  else if ext = "html" then some "HTML" else none

/-- Shallow embedding of `detectLanguage`. -/

def detectLanguage (filename : String) : Option String :=
  let ext := lastExt filename
  if ext = "" then none else langMap ext

/-! Role classifier (`ROLE_HEURISTICS`, `inferFileRole`).  Each regex of the
source is an end-anchored alternation (or a bare substring test for `\.env`),
compiled here to its finite set of suffixes. -/

/-- `sufs.any (· is a suffix of p)` — model of an end-anchored regex test. -/

def endsAny (p : String) (sufs : List String) : Bool :=
  sufs.any (fun s => s.data.isSuffixOf p.data)

/-- Shallow embedding of the ordered `ROLE_HEURISTICS` rule table. -/

def ROLE_HEURISTICS : List ((String → Bool) × String) :=
  [ (fun p => endsAny p ["layout.ts", "layout.tsx", "layout.js", "layout.jsx"],
      "Layout — Wraps all pages in this route segment"),
    (fun p => endsAny p ["page.ts", "page.tsx", "page.js", "page.jsx"],
      "Page — Renders the route UI"),
    (fun p => endsAny p ["route.ts", "route.tsx"],
      "API Route — Handles HTTP requests"),
    (fun p => endsAny p ["middleware.ts", "middleware.tsx"],
      "Middleware — Intercepts requests"),
    (fun p => endsAny p ["schema.prisma"],
      "Database Schema — Defines all data models"),
    (fun p => endsAny p [".test.ts", ".test.tsx", ".test.js", ".test.jsx",
        ".test.py", ".spec.ts", ".spec.tsx", ".spec.js", ".spec.jsx", ".spec.py"],
      "Test — Unit or integration tests"),
    (fun p => endsAny p ["index.ts", "index.tsx", "index.js", "index.jsx", "index.py"],
      "Module index — Entry point for this directory"),
    (fun p => endsAny p ["hook.ts", "hook.tsx", "hooks.ts", "hooks.tsx"],
      "Custom hook — Reusable React logic"),
    (fun p => endsAny p ["context.ts", "context.tsx"],
      "React Context — Shared state provider"),
    (fun p => endsAny p ["store.ts", "store.tsx"],
      "State store — Application state management"),
    (fun p => endsAny p ["config.ts", "config.tsx", "config.js"],
      "Configuration — App or tool settings"),
    (fun p => endsAny p ["type.ts", "type.tsx", "types.ts", "types.tsx"],
      "Type definitions — TypeScript interfaces"),
    (fun p => endsAny p ["util.ts", "util.tsx", "util.js", "utils.ts", "utils.tsx", "utils.js"],
      "Utilities — Helper functions"),
    (fun p => endsAny p ["constant.ts", "constant.tsx", "constant.js",
        "constants.ts", "constants.tsx", "constants.js"],
      "Constants — Shared constant values"),
    (fun p => endsAny p ["provider.ts", "provider.tsx", "providers.ts", "providers.tsx"],
      "Provider — Wraps app with context"),
    (fun p => endsAny (toLowerStr p) ["readme.md"],
      "Documentation — Project readme"),
    (fun p => endsAny p ["package.json"],
      "Package manifest — Dependencies and scripts"),
    (fun p => hasSub p ".env",
      "Environment config — Runtime variables") ]

/-- Shallow embedding of `inferFileRole`: first matching rule wins, then the
extension-based fallback. -/

def inferFileRole (filePath : String) : String :=
  match ROLE_HEURISTICS.find? (fun rule => rule.1 filePath) with
  | some rule => rule.2
  | none =>
    let ext := lastExt filePath
    if (ext != "") && ["ts", "tsx", "js", "jsx"].contains ext then
      "Module — A JavaScript/TypeScript module"
    else "File"

/-! Reference resolver (`resolveImportPath`). -/

/-- The candidate loop `for (const c of candidates) if (allPaths.includes(c))
return c; return null`. -/

def firstExisting : List String → List String → Option String
  | [], _ => none
  | c :: cs, allPaths =>
    if allPaths.contains c then some c else firstExisting cs allPaths

/-- Shallow embedding of `resolveImportPath`. -/

def resolveImportPath (importPath fromFile : String) (allPaths : List String) :
    Option String :=
  if !strStarts importPath "." && !strStarts importPath "@/" &&
      !strStarts importPath "~/" then
    none
  else if strStarts importPath "@/" then
    let normalized := strDrop importPath 2
    firstExisting
      [normalized, normalized ++ ".ts", normalized ++ ".tsx", normalized ++ ".js",
       normalized ++ "/index.ts", normalized ++ "/index.tsx"] allPaths
  else
    let fromDir := joinSlash ((splitSlash fromFile).dropLast)
    let resolved :=
      if fromDir ≠ "" then
        (⟨collapseDotSlashL (fromDir ++ "/" ++ importPath).data⟩ : String)
      else importPath
    let normalized := (⟨stripLeadSlashL (collapseSlashesL resolved.data)⟩ : String)
    firstExisting
      [normalized, normalized ++ ".ts", normalized ++ ".tsx", normalized ++ ".js",
       normalized ++ "/index.ts", normalized ++ "/index.tsx"] allPaths

/-! Reference extractor (`IMPORT_PATTERNS`, `extractImports`).  The five
regular expressions of the source are embedded as element sequences over a
small backtracking matcher with JavaScript regex semantics (greedy `\s+` and
`\S+`, lazy `.*?` and `(.+?)`, character class quotes, multiline `^`).  The
matcher carries a fuel counter for structural termination; fuel bounds the
call-stack depth, which for these patterns is at most twice the input length
plus the (constant) pattern length, so the budget used below is ample. -/

/-- Character classes occurring in the source regexes. -/

inductive CharClass where
  | wspace
  | nonWspace
  | dotNoNL
  | quoteC
deriving DecidableEq

/-- JavaScript `\s`. -/

def isJsWhitespace (c : Char) : Bool :=
  c == ' ' || c == '\t' || c == '\n' || c == '\r' ||
  c == '\x0b' || c == '\x0c' ||
  c.val == 0xa0 || c.val == 0x1680 ||
  (0x2000 ≤ c.val && c.val ≤ 0x200a) ||
  c.val == 0x2028 || c.val == 0x2029 || c.val == 0x202f ||
  c.val == 0x205f || c.val == 0x3000 || c.val == 0xfeff

/-- JavaScript line terminators (excluded by `.` without the `s` flag,
and the characters after which a multiline `^` can match). -/

def isJsNewline (c : Char) : Bool :=
  c == '\n' || c == '\r' || c.val == 0x2028 || c.val == 0x2029

def ccMatch : CharClass → Char → Bool
  | .wspace, c => isJsWhitespace c
  | .nonWspace, c => !isJsWhitespace c
  | .dotNoNL, c => !isJsNewline c
  | .quoteC, c => c == '"' || c == Char.ofNat 39

/-- One element of an embedded regex: a literal, a single-character class, a
greedy one-or-more, a lazy one-or-more, or a lazy zero-or-more.  The `cap`
flag marks the (unique) capturing group of each source pattern. -/

inductive CElem where
  | lit (c : Char)
  | one (cc : CharClass)
  | gplus (cc : CharClass) (cap : Bool)
  | lzplus (cc : CharClass) (cap : Bool)
  | lzstar (cc : CharClass)
deriving DecidableEq

mutual

/-- Match a sequence of elements at the start of `s`, returning the text of
the capturing group and the remaining input.  Backtracking follows the
JavaScript preference order: greedy quantifiers prefer longer, lazy prefer
shorter. -/
def mseq : Nat → List CElem → List Char → Option (List Char × List Char)
  | 0, _, _ => none
  | _ + 1, [], s => some ([], s)
  | fuel + 1, e :: es, s =>
    match e with
    | .lit c =>
      match s with
      | [] => none
      | c' :: t => if c' = c then mseq fuel es t else none
    | .one cc =>
      match s with
      | [] => none
      | c' :: t => if ccMatch cc c' then mseq fuel es t else none
    | .gplus cc cap => gmatch fuel es cc cap [] s
    | .lzplus cc cap => lzmatch fuel es cc cap true [] s
    | .lzstar cc => lzmatch fuel es cc false false [] s

/-- Greedy `+`: consume as many `cc`-characters as possible, then give back
one at a time until the continuation `es` succeeds; at least one character
must be consumed. -/
def gmatch (fuel : Nat) (es : List CElem) (cc : CharClass) (cap : Bool)
    (acc : List Char) (s : List Char) : Option (List Char × List Char) :=
  match fuel with
  | 0 => none
  | fuel + 1 =>
    let settle : Option (List Char × List Char) :=
      if acc.isEmpty then none
      else (mseq fuel es s).map (fun r => (if cap then acc else r.1, r.2))
    match s with
    | [] => settle
    | c :: t =>
      if ccMatch cc c then
        match gmatch fuel es cc cap (acc ++ [c]) t with
        | some r => some r
        | none => settle
      else settle

/-- Lazy `*`/`+` (`minOne` selects `+`): try the continuation first, then
consume one more `cc`-character and retry. -/
def lzmatch (fuel : Nat) (es : List CElem) (cc : CharClass) (cap : Bool)
    (minOne : Bool) (acc : List Char) (s : List Char) :
    Option (List Char × List Char) :=
  match fuel with
  | 0 => none
  | fuel + 1 =>
    let settled : Option (List Char × List Char) :=
      if minOne && acc.isEmpty then none
      else (mseq fuel es s).map (fun r => (if cap then acc else r.1, r.2))
    match settled with
    | some r => some r
    | none =>
      match s with
      | [] => none
      | c :: t =>
        if ccMatch cc c then lzmatch fuel es cc cap minOne (acc ++ [c]) t
        else none

end

/-- An embedded source regex: its elements and whether it is `^`-anchored
(all source patterns carry the `m` flag, so `^` matches at the start of any
line). -/

structure Pattern where
  anchored : Bool
  elems : List CElem
deriving DecidableEq

/-- The global `exec` loop of `extractImports`: scan left to right, at each
allowed position attempt a match, collect the capture and resume after the
matched text (advancing one character on an empty match, as JavaScript does
with `lastIndex`). -/

def execGo : Nat → Bool → List CElem → List Char → Bool → List (List Char)
  | 0, _, _, _, _ => []
  | fuel + 1, anch, es, s, canStart =>
    let step : List (List Char) :=
      match s with
      | [] => []
      | c :: t => execGo fuel anch es t (isJsNewline c)
    if !anch || canStart then
      match mseq (2 * s.length + 100) es s with
      | some (cap, rem) =>
        if rem.length < s.length then
          let lastC := (s.take (s.length - rem.length)).getLastD ' '
          cap :: execGo fuel anch es rem (isJsNewline lastC)
        else cap :: step
      | none => step
    else step

/-- Run one embedded pattern over a text, returning all captures in match
order (the body of the `while ((match = pattern.exec(content)) !== null)`
loop). -/

def runPattern (p : Pattern) (content : List Char) : List (List Char) :=
  execGo (content.length + 1) p.anchored p.elems content true

/-- `/import\s+(?:.*?)\s+from\s+[quote](.+?)[quote]/gm` -/

def importFromP : Pattern :=
  ⟨false,
   [.lit 'i', .lit 'm', .lit 'p', .lit 'o', .lit 'r', .lit 't',
    .gplus .wspace false, .lzstar .dotNoNL, .gplus .wspace false,
    .lit 'f', .lit 'r', .lit 'o', .lit 'm', .gplus .wspace false,
    .one .quoteC, .lzplus .dotNoNL true, .one .quoteC]⟩

/-- `/require\([quote](.+?)[quote]\)/gm` -/

def requireBody : List CElem :=
  [.lit 'r', .lit 'e', .lit 'q', .lit 'u', .lit 'i', .lit 'r', .lit 'e',
   .lit '(', .one .quoteC, .lzplus .dotNoNL true, .one .quoteC, .lit ')']

def requireP : Pattern := ⟨false, requireBody⟩

/-- `/export\s+(?:.*?)\s+from\s+[quote](.+?)[quote]/gm` -/

def exportFromP : Pattern :=
  ⟨false,
   [.lit 'e', .lit 'x', .lit 'p', .lit 'o', .lit 'r', .lit 't',
    .gplus .wspace false, .lzstar .dotNoNL, .gplus .wspace false,
    .lit 'f', .lit 'r', .lit 'o', .lit 'm', .gplus .wspace false,
    .one .quoteC, .lzplus .dotNoNL true, .one .quoteC]⟩

/-- `/^from\s+(\S+)\s+import/gm` -/

def pyFromP : Pattern :=
  ⟨true,
   [.lit 'f', .lit 'r', .lit 'o', .lit 'm', .gplus .wspace false,
    .gplus .nonWspace true, .gplus .wspace false,
    .lit 'i', .lit 'm', .lit 'p', .lit 'o', .lit 'r', .lit 't']⟩

/-- `/^import\s+(\S+)/gm` -/

def pyImportP : Pattern :=
  ⟨true,
   [.lit 'i', .lit 'm', .lit 'p', .lit 'o', .lit 'r', .lit 't',
    .gplus .wspace false, .gplus .nonWspace true]⟩

/-- The entry of `IMPORT_PATTERNS` for plain JavaScript (also the value of
the `tsx` and `jsx` entries and the `?? IMPORT_PATTERNS.js` fallback). -/

def jsPatterns : List Pattern := [importFromP, requireP]

/-- The lookup `IMPORT_PATTERNS[ext] ?? IMPORT_PATTERNS.js` on its
non-throwing domain.  `IMPORT_PATTERNS` is a plain object literal, so the
index access consults the prototype chain; at the two extensions where that
yields a truthy non-iterable inherited member this total table takes the
`js` fallback instead.  The faithful lookup with the error path kept is
`importPatternsAt` below. -/

def patternsFor (ext : String) : List Pattern :=
  if ext = "ts" then [importFromP, requireP, exportFromP]
  else if ext = "tsx" then jsPatterns
  else if ext = "js" then jsPatterns
  else if ext = "jsx" then jsPatterns
  else if ext = "py" then [pyFromP, pyImportP]
  else jsPatterns

/-- The inner loop of `extractImports`: collect the captures of every
pattern, keeping a capture only if it is truthy (nonempty) and does not start
with `"http"`. -/

def applyPatterns (ps : List Pattern) (content : String) : List String :=
  ps.flatMap (fun p =>
    (runPattern p content.data).filterMap (fun cap =>
      let s : String := ⟨cap⟩
      if s ≠ "" ∧ strStarts s "http" = false then some s else none))

/-- The import extraction pipeline on the non-throwing extension domain:
select the pattern set from the lower-cased final extension, collect
filtered captures, and deduplicate keeping first occurrences
(`[...new Set(imports)]`).  The full model with the `TypeError` path is
`extractImportsE` below, which agrees with this restriction at every
extension other than the two `Object.prototype` collisions; at those two
the real `extractImports` (and hence `buildGraph`) throws and produces
nothing, so the partial-correctness statements below about produced nodes
and edges are unaffected. -/

def extractImports (content filePath : String) : List String :=
  dedupFirst [] (applyPatterns (patternsFor (lastExt filePath)) content)

/-- The two lower-cased extension strings at which the JavaScript lookup
`IMPORT_PATTERNS[ext]` finds an inherited `Object.prototype` member instead
of an own entry or `undefined`.  Property names are case-sensitive and the
extension has been lower-cased, so of the `Object.prototype` member names
(`constructor`, `hasOwnProperty`, `isPrototypeOf`, `propertyIsEnumerable`,
`toLocaleString`, `toString`, `valueOf`, `__defineGetter__`,
`__defineSetter__`, `__lookupGetter__`, `__lookupSetter__`, `__proto__`)
only the all-lower-case `constructor` and `__proto__` are reachable. -/

def protoKeyHits : List String := ["constructor", "__proto__"]

/-- Faithful model of the lookup `IMPORT_PATTERNS[ext] ?? IMPORT_PATTERNS.js`
followed by the `for (const pattern of patterns)` header.  At an own key the
own array is iterated.  At an inherited `Object.prototype` member name the
lookup yields a truthy value (a function, or `Object.prototype` itself for
`__proto__`), so the `??` fallback is not taken and the `for ... of` header
throws a `TypeError` (the value is not iterable), modelled as
`Except.error ()`.  At every other key the lookup is `undefined` and the
`js` entry is used. -/

def importPatternsAt (ext : String) : Except Unit (List Pattern) :=
  if ext = "ts" then .ok [importFromP, requireP, exportFromP]
  else if ext = "tsx" then .ok jsPatterns
  else if ext = "js" then .ok jsPatterns
  else if ext = "jsx" then .ok jsPatterns
  else if ext = "py" then .ok [pyFromP, pyImportP]
  else if ext = "constructor" then .error ()
  else if ext = "__proto__" then .error ()
  else .ok jsPatterns

/-- Faithful model of `extractImports` keeping the error path: the pattern
selection and the `for ... of` header precede any content inspection, so at
a colliding extension the call throws even on empty content. -/

def extractImportsE (content filePath : String) : Except Unit (List String) :=
  (importPatternsAt (lastExt filePath)).map
    (fun ps => dedupFirst [] (applyPatterns ps content))

/-! Graph data model (`GraphNode`, `GraphEdge`, `FileTreeNode`,
`GraphArtifactData`, `GithubFile`). -/

structure GraphNode where
  id : String
  label : String
  type : String
  path : String
  language : Option String
  role : Option String
  size : Option Nat
deriving DecidableEq

structure GraphEdge where
  id : String
  source : String
  target : String
  type : String
deriving DecidableEq

/-- `FileTreeNode` of the source: `children` is an optional array (file
leaves are created with no `children` field). -/

inductive FileTreeNode where
  | mk (name : String) (path : String) (type : String)
      (children : Option (List FileTreeNode)) (language : Option String)

def FileTreeNode.name : FileTreeNode → String
  | .mk n _ _ _ _ => n

def FileTreeNode.path : FileTreeNode → String
  | .mk _ p _ _ _ => p

def FileTreeNode.type : FileTreeNode → String
  | .mk _ _ ty _ _ => ty

def FileTreeNode.children : FileTreeNode → Option (List FileTreeNode)
  | .mk _ _ _ cs _ => cs

def FileTreeNode.language : FileTreeNode → Option String
  | .mk _ _ _ _ lg => lg

structure GraphArtifactData where
  nodes : List GraphNode
  edges : List GraphEdge
  fileTree : FileTreeNode
  fileRoles : List (String × String)

/-- The `GithubFile` shape consumed by `buildGraph`. -/
structure GithubFile where
  path : String
  content : Option String
  size : Option Nat

/-! Tree builder (`buildFileTree`). -/

/-- The node created when a path segment has no matching child: a leaf file
node at the last segment, otherwise a directory node with an empty child
array.  `pre` is the list of already-consumed segments, so the stored path is
`parts.slice(0, i + 1).join("/")` of the source. -/

def newChild (pre : List String) (part : String) (rest : List String) :
    FileTreeNode :=
  if rest.isEmpty then
    .mk part (joinSlash (pre ++ [part])) "file" none (detectLanguage part)
  else
    .mk part (joinSlash (pre ++ [part])) "dir" (some []) none

/-- `current.children.find((c) => c.name === part)` followed by either a
recursive descent into the found child or `children.push(child)` of a fresh
chain: the first child named `part` is replaced by `f` applied to it, and if
none exists `chainEnd` is appended. -/

def replaceOrAppend (cs : List FileTreeNode) (part : String)
    (f : FileTreeNode → FileTreeNode) (chainEnd : FileTreeNode) :
    List FileTreeNode :=
  match cs with
  | [] => [chainEnd]
  | c :: cs' =>
    if c.name = part then f c :: cs'
    else c :: replaceOrAppend cs' part f chainEnd

/-- One iteration of the `for (const filePath of paths.sort())` body: walk
the segment list from the current node, creating missing children (the
source also materialises `children = []` on a node that had none, which is
the `cs.getD []` below). -/

def insertParts (pre : List String) : List String → FileTreeNode → FileTreeNode
  | [], t => t
  | part :: rest, t =>
    match t with
    | .mk n p ty cs lg =>
      .mk n p ty
        (some (replaceOrAppend (cs.getD []) part
          (insertParts (pre ++ [part]) rest)
          (insertParts (pre ++ [part]) rest (newChild pre part rest)))) lg

/-- The root literal `{ name: "/", path: "", type: "dir", children: [] }`. -/

def treeRoot : FileTreeNode := .mk "/" "" "dir" (some []) none

/-- Shallow embedding of `buildFileTree`: JavaScript `paths.sort()` sorts
lexicographically ascending, modelled by `insertionSort (· ≤ ·)`. -/

def buildFileTree (paths : List String) : FileTreeNode :=
  (List.insertionSort (· ≤ ·) paths).foldl
    (fun t p => insertParts [] (splitSlash p) t) treeRoot

/-! Edge builder / artifact assembly (`buildGraph`). -/

/-- The dedup key `` `${file.path}→${resolved}` ``. -/

def edgeKey (source target : String) : String := source ++ "→" ++ target

/-- The body of the inner `for (const imp of imports)` loop.  State is the
pair (seen edge keys, edges so far). -/

def impStep (allPaths : List String) (fpath : String)
    (st : List String × List GraphEdge) (imp : String) :
    List String × List GraphEdge :=
  match resolveImportPath imp fpath allPaths with
  | none => st
  | some resolved =>
    if resolved ≠ fpath then
      let key := edgeKey fpath resolved
      if st.1.contains key then st
      else
        (key :: st.1,
         st.2 ++ [{ id := key, source := fpath, target := resolved,
                    type := if hasSub imp "require" then "require" else "import" }])
    else st

/-- The body of the outer `for (const file of files)` loop: files without
content are skipped. -/

def edgeStep (allPaths : List String) (st : List String × List GraphEdge)
    (file : GithubFile) : List String × List GraphEdge :=
  match file.content with
  | none => st
  | some content =>
    (extractImports content file.path).foldl (impStep allPaths file.path) st

/-- Shallow embedding of `buildGraph`. -/

def buildGraph (files : List GithubFile) : GraphArtifactData :=
  let allPaths := files.map (·.path)
  let nodes : List GraphNode := files.map (fun f =>
    { id := f.path
      label := (splitSlash f.path).getLastD f.path
      type := "file"
      path := f.path
      language := detectLanguage f.path
      role := some (inferFileRole f.path)
      size := f.size })
  let st := files.foldl (edgeStep allPaths) ([], [])
  { nodes := nodes
    edges := st.2
    fileTree := buildFileTree allPaths
    fileRoles := files.map (fun f => (f.path, inferFileRole f.path)) }

/-! Job state machine (`runAnalysis` of the analyse route). -/

/-- One entry of the GitHub tree response (missing `path`/`type` fields are
modelled as the empty string, which is exactly what the truthiness filters of
the source reject). -/

structure GithubTreeItem where
  path : String
  type : String
  size : Option Nat

/-- The filter applied by `fetchTree` to the GitHub tree response. -/

def treeItemKeep (item : GithubTreeItem) : Bool :=
  item.type == "blob" && item.path != "" &&
  !strStarts item.path ".git/" && !hasSub item.path "node_modules/" &&
  !hasSub item.path "dist/" && !hasSub item.path ".next/" &&
  !hasSub item.path "vendor/" && !hasSub item.path "__pycache__/"

/-- `MAX_FILES` of the analyse route. -/

def MAX_FILES : Nat := 100

/-- Environment of one `runAnalysis` invocation: the outcomes of the two
GitHub HTTP calls, the per-file content fetches (`fetchFile` returns `null`
on any failure, hence an `Option`), and whether each database write
succeeds (a failing write throws with message `dbMsg` and leaves the stored
row unchanged). -/

structure RunEnv where
  repoOk : Bool
  repoStatus : Nat
  treeOk : Bool
  treeStatus : Nat
  treeItems : List GithubTreeItem
  fileContent : String → Option String
  processingOk : Bool
  upsertOk : Bool
  completedOk : Bool
  failedOk : Bool
  dbMsg : String

/-- Shallow embedding of `fetchTree`: a non-ok repo response throws
`GitHub API error: <status>`, a non-ok tree response throws
`GitHub tree error: <status>`, otherwise the filtered blob list is
returned. -/

def fetchTreeM (env : RunEnv) : Except String (List GithubTreeItem) :=
  if !env.repoOk then .error ("GitHub API error: " ++ toString env.repoStatus)
  else if !env.treeOk then .error ("GitHub tree error: " ++ toString env.treeStatus)
  else .ok (env.treeItems.filter treeItemKeep)

/-- The persisted state of one analysis row: its status, optional error
message, and optional persisted artifact. -/

structure JobState where
  status : String
  error : Option String
  artifact : Option GraphArtifactData

/-- The `catch` block of `runAnalysis`:
`db.analysis.update({status: FAILED, error: msg}).catch(() => {}); throw err`.
A failing FAILED-write is swallowed and leaves the row unchanged; the
original error is re-thrown either way. -/

def recordFailure (env : RunEnv) (s : JobState) (msg : String) :
    Except String Unit × JobState :=
  if env.failedOk then
    (.error msg, { s with status := "FAILED", error := some msg })
  else (.error msg, s)

/-- The fan-out stage of `runAnalysis`: cap the tree at `MAX_FILES`
(`slice(0, MAX_FILES)`), skip falsy paths, and fetch content for files the
content filter accepts (each `Promise.allSettled` task resolves to `null`
rather than rejecting, hence the `Option`-valued environment). -/

def analysisFiles (env : RunEnv) (treeItems : List GithubTreeItem) :
    List GithubFile :=
  (treeItems.take MAX_FILES).filterMap (fun item =>
    if item.path = "" then none
    else some
      { path := item.path
        content :=
          if shouldFetch item.path item.size then env.fileContent item.path
          else none
        size := item.size })

/-- Shallow embedding of `runAnalysis`: mark PROCESSING, fetch the tree, cap
at `MAX_FILES`, fetch content for eligible files, build the graph, upsert
the artifact, mark COMPLETED; any throw inside the `try` lands in
`recordFailure`. -/

def runAnalysis (env : RunEnv) (s0 : JobState) : Except String Unit × JobState :=
  if !env.processingOk then (.error env.dbMsg, s0)
  else
    let s1 : JobState := { s0 with status := "PROCESSING" }
    match fetchTreeM env with
    | .error msg => recordFailure env s1 msg
    | .ok treeItems =>
      let artifact := buildGraph (analysisFiles env treeItems)
      if !env.upsertOk then recordFailure env s1 env.dbMsg
      else
        let s2 : JobState := { s1 with artifact := some artifact }
        if !env.completedOk then recordFailure env s2 env.dbMsg
        else (.ok (), { s2 with status := "COMPLETED" })

/-- The fixed candidate list of the resolver, in source order. -/

def resolveCandidates (stem : String) : List String :=
  [stem, stem ++ ".ts", stem ++ ".tsx", stem ++ ".js",
   stem ++ "/index.ts", stem ++ "/index.tsx"]

/-- The stem of a relative (or home-relative) specifier: join to the
referencing directory collapsing `/./` occurrences (only when the directory
is nonempty), then collapse duplicate slashes and strip one leading slash. -/

def relStem (importPath fromFile : String) : String :=
  let fromDir := joinSlash ((splitSlash fromFile).dropLast)
  let resolved :=
    if fromDir ≠ "" then
      (⟨collapseDotSlashL (fromDir ++ "/" ++ importPath).data⟩ : String)
    else importPath
  ⟨stripLeadSlashL (collapseSlashesL resolved.data)⟩

/-- Modelled from the spec: a specifier `beginning with a URL scheme` — one
or more ASCII letters followed by `://` (the spec names this as the
criterion for dropping full network URLs). -/

def specBeginsWithURLScheme (s : String) : Bool :=
  let pre := s.data.takeWhile (fun c => c.isAlpha)
  !pre.isEmpty && strStartsL [':', '/', '/'] (s.data.drop pre.length)

/-- Per-edge property: provenance and well-formedness of one emitted edge. -/

def edgeOk (files : List GithubFile) (allPaths : List String)
    (e : GraphEdge) : Prop :=
  e.source ≠ e.target ∧ e.target ∈ allPaths ∧
  ∃ f ∈ files, ∃ c, f.content = some c ∧ e.source = f.path ∧
    ∃ imp ∈ extractImports c f.path,
      resolveImportPath imp f.path allPaths = some e.target ∧
      e.type = (if hasSub imp "require" then "require" else "import")

/-- The loop invariant of the edge-building fold. -/

def EdgeInv (files : List GithubFile) (allPaths : List String)
    (st : List String × List GraphEdge) : Prop :=
  (∀ e ∈ st.2, edgeOk files allPaths e ∧ edgeKey e.source e.target ∈ st.1) ∧
  st.2.Pairwise
    (fun e₁ e₂ => edgeKey e₁.source e₁.target ≠ edgeKey e₂.source e₂.target)

/-- Environment in which the top-level repo request fails and all database
writes succeed. -/

def envFetchFail : RunEnv :=
  { repoOk := false, repoStatus := 500, treeOk := true, treeStatus := 200,
    treeItems := [], fileContent := fun _ => none, processingOk := true,
    upsertOk := true, completedOk := true, failedOk := true,
    dbMsg := "db write failed" }

/-- Environment in which every stage succeeds. -/

def envAllOk : RunEnv :=
  { envFetchFail with repoOk := true }

/-- Environment in which the fetch fails and the FAILED write also fails. -/

def envSwallow : RunEnv :=
  { envFetchFail with failedOk := false }

/-- The freshly created analysis row. -/

def pendingJob : JobState := { status := "PENDING", error := none, artifact := none }

/-- Walk a tree position: at each level, the first child whose name equals
the segment (the `children.find` of the source). -/

def descend : FileTreeNode → List String → Option FileTreeNode
  | t, [] => some t
  | t, q :: qs =>
    match (t.children.getD []).find? (fun c => c.name = q) with
    | none => none
    | some c => descend c qs

mutual

/-- The paths of the file-typed nodes of a tree, in traversal order. -/
def leaves : FileTreeNode → List String
  | .mk _ p ty none _ => if ty = "file" then [p] else []
  | .mk _ p ty (some cs) _ => (if ty = "file" then [p] else []) ++ leavesL cs

def leavesL : List FileTreeNode → List String
  | [] => []
  | c :: cs => leaves c ++ leavesL cs

end

/-- The names of a node's children. -/

def childNames (t : FileTreeNode) : List String :=
  (t.children.getD []).map FileTreeNode.name

/-- `ps` is an initial segment of `qs`. -/

def InitSeg {α : Type} (ps qs : List α) : Prop := ∃ ts, ps ++ ts = qs

/-- The chain of fresh nodes created below a missing child: directories down
to a final file leaf. -/

def freshChain (pre : List String) (part : String) : List String → FileTreeNode
  | [] => .mk part (joinSlash (pre ++ [part])) "file" none (detectLanguage part)
  | r :: rs =>
    .mk part (joinSlash (pre ++ [part])) "dir"
      (some [freshChain (pre ++ [part]) r rs]) none

/-- The invariant relating the tree to the sorted prefix `P` of paths already
inserted: positions are exactly the initial segments of the split inserted
paths; every node carries the joined path of its position; a node is
file-typed exactly when its joined position is an inserted path; child name
lists are duplicate-free; every inserted path occurs exactly once among the
leaves. -/

def TreeInv (P : List String) (t : FileTreeNode) : Prop :=
  (∀ qs : List String, qs ≠ [] →
     ((descend t qs).isSome = true ↔ ∃ q ∈ P, InitSeg qs (splitSlash q))) ∧
  (∀ qs c, qs ≠ [] → descend t qs = some c → c.path = joinSlash qs) ∧
  (∀ qs c, qs ≠ [] → descend t qs = some c →
     (c.type = "file" ↔ joinSlash qs ∈ P)) ∧
  (∀ qs c, descend t qs = some c → (childNames c).Nodup) ∧
  (∀ x : String, (leaves t).count x = if x ∈ P then 1 else 0)

theorem splitCh_ne_nil (sep : Char) (l : List Char) : splitCh sep l ≠ [] := by
  cases l with
  | nil => simp [splitCh]
  | cons c cs =>
    simp only [splitCh]
    rcases h : splitCh sep cs with _ | ⟨g, gs⟩
    · simp
    · by_cases hc : c = sep <;> simp [hc]

theorem splitCh_sep_not_mem (sep : Char) (l : List Char) :
    ∀ g ∈ splitCh sep l, sep ∉ g := by
  induction l with
  | nil => simp [splitCh]
  | cons c cs ih =>
    rcases h : splitCh sep cs with _ | ⟨g, gs⟩
    · exact absurd h (splitCh_ne_nil sep cs)
    · have ih' : ∀ g' ∈ g :: gs, sep ∉ g' := h ▸ ih
      intro g' hg'
      simp only [splitCh, h] at hg'
      by_cases hc : c = sep
      · rw [if_pos hc] at hg'
        rcases List.mem_cons.1 hg' with rfl | hg2
        · simp
        · exact ih' g' hg2
      · rw [if_neg hc] at hg'
        rcases List.mem_cons.1 hg' with rfl | hg2
        · intro hmem
          rcases List.mem_cons.1 hmem with rfl | hmem'
          · exact hc rfl
          · exact ih' g (List.mem_cons_self g gs) hmem'
        · exact ih' g' (List.mem_cons_of_mem g hg2)

theorem joinCh_splitCh (sep : Char) (l : List Char) :
    joinCh sep (splitCh sep l) = l := by
  induction l with
  | nil => simp [splitCh, joinCh]
  | cons c cs ih =>
    simp only [splitCh]
    rcases h : splitCh sep cs with _ | ⟨g, gs⟩
    · exact absurd h (splitCh_ne_nil sep cs)
    · rw [h] at ih
      by_cases hc : c = sep
      · subst hc
        simpa [joinCh] using ih
      · simp only [if_neg hc]
        cases gs with
        | nil => simpa [joinCh] using congrArg (c :: ·) ih
        | cons g' gs' => simpa [joinCh] using congrArg (c :: ·) ih

/-- `splitCh` is a left inverse of `joinCh` on nonempty, separator-free
group lists. -/

theorem splitCh_joinCh (sep : Char) :
    ∀ gs : List (List Char), gs ≠ [] → (∀ g ∈ gs, sep ∉ g) →
      splitCh sep (joinCh sep gs) = gs := by
  have hfree : ∀ (g : List Char), sep ∉ g → ∀ rest r rs,
      splitCh sep rest = r :: rs → splitCh sep (g ++ rest) = (g ++ r) :: rs := by
    intro g
    induction g with
    | nil =>
      intro _ rest r rs h
      simpa using h
    | cons c g' ih =>
      intro hg rest r rs h
      have hc : c ≠ sep := fun h => hg (h ▸ List.mem_cons_self c g')
      have hg' : sep ∉ g' := fun h => hg (List.mem_cons_of_mem c h)
      have hrec : splitCh sep (g' ++ rest) = (g' ++ r) :: rs := ih hg' rest r rs h
      simp only [List.cons_append, splitCh, List.append_eq]
      rw [hrec]
      simp [hc]
  intro gs
  induction gs with
  | nil => intro h; exact absurd rfl h
  | cons g gs' ih =>
    intro _ hfreeAll
    have hg : sep ∉ g := hfreeAll g (List.mem_cons_self g gs')
    cases gs' with
    | nil =>
      have := hfree g hg [] [] [] (by simp [splitCh])
      simpa [joinCh] using this
    | cons g₂ gs₂ =>
      have hrec := ih (by simp) (fun x hx => hfreeAll x (List.mem_cons_of_mem g hx))
      have hj : joinCh sep (g :: g₂ :: gs₂) = g ++ sep :: joinCh sep (g₂ :: gs₂) := rfl
      have hsep : splitCh sep (sep :: joinCh sep (g₂ :: gs₂)) = [] :: g₂ :: gs₂ := by
        simp only [splitCh, hrec]
        simp
      have := hfree g hg (sep :: joinCh sep (g₂ :: gs₂)) [] (g₂ :: gs₂) hsep
      rw [hj, this]
      simp

theorem splitSlash_ne_nil (s : String) : splitSlash s ≠ [] := by
  simp only [splitSlash, ne_eq, List.map_eq_nil_iff]
  exact splitCh_ne_nil '/' s.data

theorem joinSlash_splitSlash (s : String) : joinSlash (splitSlash s) = s := by
  simp only [joinSlash, splitSlash, List.map_map]
  have : (String.data ∘ fun g => (⟨g⟩ : String)) = id := rfl
  rw [this, List.map_id, joinCh_splitCh]

theorem splitSlash_segFree (s : String) : ∀ x ∈ splitSlash s, SegFree x := by
  intro x hx
  simp only [splitSlash, List.mem_map] at hx
  obtain ⟨g, hg, rfl⟩ := hx
  exact splitCh_sep_not_mem '/' s.data g hg

theorem splitSlash_joinSlash (gs : List String) (hne : gs ≠ [])
    (hfree : ∀ g ∈ gs, SegFree g) : splitSlash (joinSlash gs) = gs := by
  simp only [splitSlash, joinSlash]
  rw [splitCh_joinCh '/' (gs.map String.data)
    (by simpa using hne) (by simpa [SegFree] using hfree)]
  simp only [List.map_map]
  have : ((fun g => (⟨g⟩ : String)) ∘ String.data) = id := by
    funext x; cases x; rfl
  rw [this, List.map_id]

theorem dedupFirst_mem (l : List String) :
    ∀ seen x, x ∈ dedupFirst seen l ↔ x ∈ l ∧ x ∉ seen := by
  induction l with
  | nil => simp [dedupFirst]
  | cons a l ih =>
    intro seen x
    simp only [dedupFirst]
    by_cases ha : seen.contains a
    · have ha' : a ∈ seen := by simpa using ha
      rw [if_pos ha, ih seen x]
      constructor
      · rintro ⟨hx, hs⟩; exact ⟨List.mem_cons_of_mem a hx, hs⟩
      · rintro ⟨hx, hs⟩
        rcases List.mem_cons.1 hx with rfl | hx
        · exact absurd ha' hs
        · exact ⟨hx, hs⟩
    · have ha' : a ∉ seen := by simpa using ha
      rw [if_neg ha]
      constructor
      · intro hmem
        rcases List.mem_cons.1 hmem with rfl | hmem
        · exact ⟨List.mem_cons_self x l, ha'⟩
        · obtain ⟨hx, hs⟩ := (ih (a :: seen) x).1 hmem
          exact ⟨List.mem_cons_of_mem a hx,
            fun h => hs (List.mem_cons_of_mem a h)⟩
      · rintro ⟨hx, hs⟩
        by_cases hxa : x = a
        · exact hxa ▸ List.mem_cons_self a _
        · rcases List.mem_cons.1 hx with rfl | hx
          · exact absurd rfl hxa
          · refine List.mem_cons_of_mem a ((ih (a :: seen) x).2 ⟨hx, ?_⟩)
            intro h
            rcases List.mem_cons.1 h with h' | h'
            · exact hxa h'
            · exact hs h'

theorem dedupFirst_nodup (l : List String) :
    ∀ seen, (dedupFirst seen l).Nodup := by
  induction l with
  | nil => intro _; simp [dedupFirst]
  | cons a l ih =>
    intro seen
    simp only [dedupFirst]
    by_cases ha : seen.contains a
    · rw [if_pos ha]; exact ih seen
    · rw [if_neg ha]
      refine List.nodup_cons.2 ⟨?_, ih (a :: seen)⟩
      intro hmem
      exact ((dedupFirst_mem l (a :: seen) a).1 hmem).2 (List.mem_cons_self a seen)

/-! Helper lemmas shared by the claim theorems. -/

theorem getLastD_eq_of_ne_nil {α : Type} (l : List α) (d₁ d₂ : α) (h : l ≠ []) :
    l.getLastD d₁ = l.getLastD d₂ := by
  cases l with
  | nil => exact absurd rfl h
  | cons a t => rw [List.getLastD_cons, List.getLastD_cons]

theorem firstExisting_eq_find (cands allPaths : List String) :
    firstExisting cands allPaths =
      cands.find? (fun c => allPaths.contains c) := by
  induction cands with
  | nil => rfl
  | cons c cs ih =>
    by_cases h : allPaths.contains c = true
    · rw [firstExisting, if_pos h, List.find?_cons_of_pos _ h]
    · rw [firstExisting, if_neg h, List.find?_cons_of_neg _ h, ih]

theorem firstExisting_mem (cands allPaths : List String) (r : String)
    (h : firstExisting cands allPaths = some r) : r ∈ allPaths := by
  induction cands with
  | nil => simp [firstExisting] at h
  | cons c cs ih =>
    by_cases hc : allPaths.contains c
    · rw [firstExisting, if_pos hc] at h
      cases h
      simpa using hc
    · rw [firstExisting, if_neg hc] at h
      exact ih h

theorem resolveImportPath_mem (imp fromFile : String) (allPaths : List String)
    (r : String) (h : resolveImportPath imp fromFile allPaths = some r) :
    r ∈ allPaths := by
  unfold resolveImportPath at h
  split at h
  · exact absurd h (by simp)
  · split at h
    · exact firstExisting_mem _ _ _ h
    · exact firstExisting_mem _ _ _ h

/-! Claim C6: the content filter. -/

/-- C6: `shouldFetchContent` returns false whenever the size is known and
exceeds 100000 bytes, and otherwise returns true exactly when the lower-cased
final extension of the path belongs to the fixed allow-list
ts, tsx, js, jsx, mjs, cjs, py, go, rs, rb, java, cs, cpp, c.  It is a total
Boolean function (no error cases). -/

theorem C6_shouldFetchContent_spec (path : String) (size : Option Nat) :
    (∀ n, size = some n → n > 100000 → shouldFetchContent path size = false) ∧
    ((size = none ∨ ∃ n, size = some n ∧ n ≤ 100000) →
      (shouldFetchContent path size = true ↔
        lastExt path ∈ ANALYSABLE_EXTENSIONS)) := by
  constructor
  · intro n hn hgt
    subst hn
    simp only [shouldFetchContent, MAX_FILE_SIZE_BYTES]
    rw [if_pos (by simpa using hgt)]
  · intro hsz
    have hext : ((lastExt path != "") &&
        ANALYSABLE_EXTENSIONS.contains (lastExt path)) = true ↔
          lastExt path ∈ ANALYSABLE_EXTENSIONS := by
      by_cases he : lastExt path = ""
      · rw [he]
        constructor
        · intro h; simp at h
        · intro hmem; exact absurd hmem (by decide)
      · have h1 : (lastExt path != "") = true := by simpa using he
        rw [h1, Bool.true_and]
        simp
    rcases hsz with rfl | ⟨n, rfl, hle⟩
    · simp only [shouldFetchContent]
      rw [if_neg (by simp)]
      exact hext
    · simp only [shouldFetchContent]
      rw [if_neg (by simp only [MAX_FILE_SIZE_BYTES, decide_eq_true_eq]; omega)]
      exact hext

/-- Closed instance of `C6_shouldFetchContent_spec`, with both hypotheses
discharged on concrete inputs. -/

theorem C6_shouldFetchContent_spec_witness :
    shouldFetchContent "big.ts" (some 100001) = false ∧
    (shouldFetchContent "a.ts" (some 5) = true ↔
      lastExt "a.ts" ∈ ANALYSABLE_EXTENSIONS) :=
  ⟨(C6_shouldFetchContent_spec "big.ts" (some 100001)).1 100001 rfl (by decide),
   (C6_shouldFetchContent_spec "a.ts" (some 5)).2 (Or.inr ⟨5, rfl, by decide⟩)⟩

/-! Claim C2: one node per input record. -/

/-- C2: `buildGraph` produces exactly one node per input record: the node
count equals the input length, the node ids are exactly the input paths (in
order, hence as a set), and every node is labelled with the last slash
segment of its path. -/

theorem C2_buildGraph_nodes_spec (files : List GithubFile) :
    (buildGraph files).nodes.length = files.length ∧
    (buildGraph files).nodes.map GraphNode.id = files.map GithubFile.path ∧
    ∀ n ∈ (buildGraph files).nodes,
      n.label = (splitSlash n.path).getLastD "" ∧ n.id = n.path := by
  refine ⟨by simp [buildGraph], by simp [buildGraph], ?_⟩
  intro n hn
  simp only [buildGraph, List.mem_map] at hn
  obtain ⟨f, hf, rfl⟩ := hn
  exact ⟨getLastD_eq_of_ne_nil _ _ _ (splitSlash_ne_nil f.path), rfl⟩

/-- Closed instance of `C2_buildGraph_nodes_spec`, discharging the node
membership hypothesis on a concrete node. -/

theorem C2_buildGraph_nodes_spec_witness :
    ({ id := "src/b.ts", label := "b.ts", type := "file", path := "src/b.ts",
       language := some "TypeScript",
       role := some "Module — A JavaScript/TypeScript module",
       size := some 10 } : GraphNode).label =
      (splitSlash "src/b.ts").getLastD "" ∧
    ({ id := "src/b.ts", label := "b.ts", type := "file", path := "src/b.ts",
       language := some "TypeScript",
       role := some "Module — A JavaScript/TypeScript module",
       size := some 10 } : GraphNode).id = "src/b.ts" := by
  have hnodes :
      (buildGraph [⟨"src/a.ts", none, none⟩, ⟨"src/b.ts", none, some 10⟩]).nodes =
        [{ id := "src/a.ts", label := "a.ts", type := "file", path := "src/a.ts",
           language := some "TypeScript",
           role := some "Module — A JavaScript/TypeScript module", size := none },
         { id := "src/b.ts", label := "b.ts", type := "file", path := "src/b.ts",
           language := some "TypeScript",
           role := some "Module — A JavaScript/TypeScript module",
           size := some 10 }] := rfl
  exact (C2_buildGraph_nodes_spec
      [⟨"src/a.ts", none, none⟩, ⟨"src/b.ts", none, some 10⟩]).2.2
    _ (by rw [hnodes]; exact List.mem_cons_of_mem _ (List.mem_cons_self _ _))

/-! Claim C3: the reference resolver. -/

/-- C3: the resolver returns `none` for any specifier that does not start
with `.`, `@/` or `~/`; for an alias specifier it returns the first member
of the fixed candidate list `[stem, stem.ts, stem.tsx, stem.js,
stem/index.ts, stem/index.tsx]` (stem = specifier without the `@/` marker)
present in the known path set; for a relative or home-relative specifier it
does the same with the stem joined to the referencing directory. -/

theorem C3_resolveImportPath_spec (imp fromFile : String)
    (allPaths : List String) :
    (strStarts imp "." = false → strStarts imp "@/" = false →
      strStarts imp "~/" = false →
      resolveImportPath imp fromFile allPaths = none) ∧
    (strStarts imp "@/" = true →
      resolveImportPath imp fromFile allPaths =
        (resolveCandidates (strDrop imp 2)).find?
          (fun c => allPaths.contains c)) ∧
    ((strStarts imp "." = true ∨ strStarts imp "~/" = true) →
      strStarts imp "@/" = false →
      resolveImportPath imp fromFile allPaths =
        (resolveCandidates (relStem imp fromFile)).find?
          (fun c => allPaths.contains c)) := by
  refine ⟨?_, ?_, ?_⟩
  · intro h1 h2 h3
    simp [resolveImportPath, h1, h2, h3]
  · intro h2
    simp [resolveImportPath, h2, firstExisting_eq_find, resolveCandidates]
  · intro h13 h2
    rcases h13 with h1 | h3
    · simp [resolveImportPath, h1, h2, firstExisting_eq_find,
        resolveCandidates, relStem]
    · simp [resolveImportPath, h3, h2, firstExisting_eq_find,
        resolveCandidates, relStem]

/-- Closed instance of `C3_resolveImportPath_spec`: all three classification
hypotheses discharged on concrete specifiers. -/

theorem C3_resolveImportPath_spec_witness :
    resolveImportPath "react" "src/a.ts" ["src/a.ts"] = none ∧
    resolveImportPath "@/lib/db" "src/a.ts" ["lib/db.ts"] =
      (resolveCandidates (strDrop "@/lib/db" 2)).find?
        (fun c => (["lib/db.ts"] : List String).contains c) ∧
    resolveImportPath "./b" "src/a.ts" ["src/b.ts"] =
      (resolveCandidates (relStem "./b" "src/a.ts")).find?
        (fun c => (["src/b.ts"] : List String).contains c) :=
  ⟨(C3_resolveImportPath_spec "react" "src/a.ts" ["src/a.ts"]).1
      (by decide) (by decide) (by decide),
   (C3_resolveImportPath_spec "@/lib/db" "src/a.ts" ["lib/db.ts"]).2.1
      (by decide),
   (C3_resolveImportPath_spec "./b" "src/a.ts" ["src/b.ts"]).2.2
      (Or.inl (by decide)) (by decide)⟩

/-! Claim C10: extension fallback of the reference extractor.  Helper
lemmas relate the faithful lookup `importPatternsAt` (with the
prototype-chain error path) to the total table `patternsFor` away from the
two colliding extensions. -/

theorem importPatternsAt_error (ext : String) (h : ext ∈ protoKeyHits) :
    importPatternsAt ext = Except.error () := by
  have hor : ext = "constructor" ∨ ext = "__proto__" := by
    simpa [protoKeyHits] using h
  rcases hor with h1 | h1 <;> subst h1 <;> rfl

theorem importPatternsAt_eq_patternsFor (ext : String)
    (h : ext ∉ protoKeyHits) :
    importPatternsAt ext = Except.ok (patternsFor ext) := by
  have hcon : ext ≠ "constructor" := fun e => h (by simp [protoKeyHits, e])
  have hpro : ext ≠ "__proto__" := fun e => h (by simp [protoKeyHits, e])
  rw [importPatternsAt, patternsFor]
  split_ifs <;> rfl

theorem extractImportsE_error (content filePath : String)
    (h : lastExt filePath ∈ protoKeyHits) :
    extractImportsE content filePath = Except.error () := by
  simp [extractImportsE, importPatternsAt_error _ h, Except.map]

theorem extractImportsE_eq (content filePath : String)
    (h : lastExt filePath ∉ protoKeyHits) :
    extractImportsE content filePath =
      Except.ok (extractImports content filePath) := by
  simp [extractImportsE, importPatternsAt_eq_patternsFor _ h, Except.map,
    extractImports]

/-- C10 (amended): for a file whose lower-cased final extension has no entry
in `IMPORT_PATTERNS` (anything other than ts, tsx, js, jsx, py), the
extractor falls back to the JavaScript pattern pair and behaves exactly like
a `.js` file with the same content — unless the extension collides with an
inherited `Object.prototype` member (`constructor` or `__proto__`): there
the lookup yields a truthy non-iterable value and the call throws a
`TypeError` instead of applying any pattern. -/

theorem C10_extractImports_fallback (content filePath : String)
    (h : lastExt filePath ∉ (["ts", "tsx", "js", "jsx", "py"] : List String)) :
    (lastExt filePath ∉ protoKeyHits →
       extractImportsE content filePath =
         Except.ok (dedupFirst [] (applyPatterns jsPatterns content)) ∧
       extractImportsE content filePath = extractImportsE content "file.js") ∧
    (lastExt filePath ∈ protoKeyHits →
       extractImportsE content filePath = Except.error ()) := by
  have hts : lastExt filePath ≠ "ts" := fun e => h (by simp [e])
  have htsx : lastExt filePath ≠ "tsx" := fun e => h (by simp [e])
  have hjs : lastExt filePath ≠ "js" := fun e => h (by simp [e])
  have hjsx : lastExt filePath ≠ "jsx" := fun e => h (by simp [e])
  have hpy : lastExt filePath ≠ "py" := fun e => h (by simp [e])
  constructor
  · intro hk
    have hfall : patternsFor (lastExt filePath) = jsPatterns := by
      simp [patternsFor, hts, htsx, hjs, hjsx, hpy]
    have h1 : extractImportsE content filePath =
        Except.ok (dedupFirst [] (applyPatterns jsPatterns content)) := by
      rw [extractImportsE_eq content filePath hk, extractImports, hfall]
    refine ⟨h1, ?_⟩
    rw [h1, extractImportsE_eq content "file.js" (by decide), extractImports]
    rw [show lastExt "file.js" = "js" from by decide]
    rfl
  · exact extractImportsE_error content filePath

/-- Closed instance of `C10_extractImports_fallback`: a Go file falls back
to the JavaScript pattern pair and behaves like a `.js` file, while an
extension colliding with `Object.prototype` throws. -/

theorem C10_extractImports_fallback_witness :
    extractImportsE "x" "m.go" =
      Except.ok (dedupFirst [] (applyPatterns jsPatterns "x")) ∧
    extractImportsE "x" "m.go" = extractImportsE "x" "file.js" ∧
    extractImportsE "" "y.constructor" = Except.error () :=
  ⟨((C10_extractImports_fallback "x" "m.go" (by decide)).1 (by decide)).1,
   ((C10_extractImports_fallback "x" "m.go" (by decide)).1 (by decide)).2,
   (C10_extractImports_fallback "" "y.constructor" (by decide)).2 (by decide)⟩

/-- Counterexample to the claim that every extension outside the
`IMPORT_PATTERNS` table falls back to the JavaScript pattern set: the
lower-cased extension `constructor` is outside the table, yet the
object-literal lookup finds the inherited `Object.prototype.constructor`
(truthy and not iterable), so the extraction throws a `TypeError` and
applies no pattern — the same content under a `.js` extension extracts a
specifier. -/

theorem C10_extractImports_counterexample :
    lastExt "x.constructor" ∉ (["ts", "tsx", "js", "jsx", "py"] : List String) ∧
    extractImportsE "import x from \"./a\"" "x.constructor" =
      Except.error () ∧
    extractImportsE "import x from \"./a\"" "x.js" = Except.ok ["./a"] :=
  ⟨by decide, rfl, rfl⟩

/-! Claim C9: role classifier. -/

theorem suffix_of_suffix_of_length_le {α : Type} (l s₁ s₂ : List α)
    (h₁ : s₁ <:+ l) (h₂ : s₂ <:+ l) (hle : s₁.length ≤ s₂.length) :
    s₁ <:+ s₂ := by
  obtain ⟨t₁, ht₁⟩ := h₁
  obtain ⟨t₂, ht₂⟩ := h₂
  have he : t₁ ++ s₁ = t₂ ++ s₂ := ht₁.trans ht₂.symm
  have hlen : t₂.length ≤ t₁.length := by
    have := congrArg List.length he
    simp only [List.length_append] at this
    omega
  refine ⟨t₁.drop t₂.length, ?_⟩
  have hdd := congrArg (List.drop t₂.length) he
  rwa [List.drop_append_of_le_length hlen, List.drop_left] at hdd

theorem endsAny_iff (p : String) (sufs : List String) :
    endsAny p sufs = true ↔ ∃ s ∈ sufs, s.data <:+ p.data := by
  simp [endsAny, List.isSuffixOf]

/-- C9: the role classifier evaluates its ordered rule list with first match
winning: a path ending in a page convention gets a role containing `Page`, a
path ending in a layout convention gets a role containing `Layout`, a path
matching no rule gets the generic module role when its extension is a known
source extension, and the bare role `File` otherwise. -/

theorem C9_inferFileRole_spec (p : String) :
    (endsAny p ["page.ts", "page.tsx", "page.js", "page.jsx"] = true →
      hasSub (inferFileRole p) "Page" = true) ∧
    (endsAny p ["layout.ts", "layout.tsx", "layout.js", "layout.jsx"] = true →
      hasSub (inferFileRole p) "Layout" = true) ∧
    ((∀ rule ∈ ROLE_HEURISTICS, rule.1 p = false) →
      lastExt p ∈ (["ts", "tsx", "js", "jsx"] : List String) →
      inferFileRole p = "Module — A JavaScript/TypeScript module") ∧
    ((∀ rule ∈ ROLE_HEURISTICS, rule.1 p = false) →
      lastExt p ∉ (["ts", "tsx", "js", "jsx"] : List String) →
      inferFileRole p = "File") := by
  refine ⟨?_, ?_, ?_, ?_⟩
  · intro hp
    have hl : endsAny p ["layout.ts", "layout.tsx", "layout.js", "layout.jsx"]
        = false := by
      rw [Bool.eq_false_iff]
      intro hcon
      obtain ⟨s, hs, hsfx⟩ := (endsAny_iff p _).1 hp
      obtain ⟨sL, hsL, hsfxL⟩ := (endsAny_iff p _).1 hcon
      fin_cases hs <;> fin_cases hsL <;>
        exact absurd
          (suffix_of_suffix_of_length_le _ _ _ hsfx hsfxL (by decide))
          (by decide)
    have hfind : ROLE_HEURISTICS.find? (fun rule => rule.1 p) =
        some (fun q => endsAny q ["page.ts", "page.tsx", "page.js", "page.jsx"],
          "Page — Renders the route UI") := by
      rw [ROLE_HEURISTICS]
      simp only [List.find?_cons, hl, hp]
    simp only [inferFileRole, hfind]
    decide
  · intro hp
    have hfind : ROLE_HEURISTICS.find? (fun rule => rule.1 p) =
        some (fun q => endsAny q ["layout.ts", "layout.tsx", "layout.js", "layout.jsx"],
          "Layout — Wraps all pages in this route segment") := by
      rw [ROLE_HEURISTICS]
      simp only [List.find?_cons, hp]
    simp only [inferFileRole, hfind]
    decide
  · intro hAll hext
    have hfind : ROLE_HEURISTICS.find? (fun rule => rule.1 p) = none :=
      List.find?_eq_none.2 (fun r hr => by simp [hAll r hr])
    simp only [inferFileRole, hfind]
    simp only [List.mem_cons, List.mem_singleton, List.not_mem_nil, or_false] at hext
    rcases hext with h | h | h | h <;> rw [h] <;> rfl
  · intro hAll hext
    have hfind : ROLE_HEURISTICS.find? (fun rule => rule.1 p) = none :=
      List.find?_eq_none.2 (fun r hr => by simp [hAll r hr])
    simp only [inferFileRole, hfind]
    have hcontains : (["ts", "tsx", "js", "jsx"] : List String).contains
        (lastExt p) = false := by simpa using hext
    rw [hcontains, Bool.and_false, if_neg (by simp)]

/-- Closed instance of `C9_inferFileRole_spec`: all four clauses discharged
on concrete paths. -/

theorem C9_inferFileRole_spec_witness :
    hasSub (inferFileRole "app/page.tsx") "Page" = true ∧
    hasSub (inferFileRole "app/layout.tsx") "Layout" = true ∧
    inferFileRole "src/main.ts" = "Module — A JavaScript/TypeScript module" ∧
    inferFileRole "cmd/main.go" = "File" :=
  ⟨(C9_inferFileRole_spec "app/page.tsx").1 (by decide),
   (C9_inferFileRole_spec "app/layout.tsx").2.1 (by decide),
   (C9_inferFileRole_spec "src/main.ts").2.2.1 (by decide) (by decide),
   (C9_inferFileRole_spec "cmd/main.go").2.2.2 (by decide) (by decide)⟩

/-! Claim C7: the reference extractor output. -/

/-- C7 (amended): whenever the extraction returns (every extension except
the two `Object.prototype` collisions `constructor` and `__proto__`), the
result is duplicate-free, its members are nonempty and never start with the
four characters `http` (specifiers beginning with other URL schemes survive
— see the counterexample), and empty content yields the empty list; at a
colliding extension the call throws even on empty content, since the
pattern selection precedes any content inspection. -/

theorem C7_extractImports_spec (content filePath : String) :
    (∀ l, extractImportsE content filePath = Except.ok l →
       l.Nodup ∧
       (∀ s ∈ l, s ≠ "" ∧ strStarts s "http" = false) ∧
       (content = "" → l = [])) ∧
    (lastExt filePath ∈ protoKeyHits →
       extractImportsE content filePath = Except.error ()) := by
  constructor
  · intro l hl
    by_cases hk : lastExt filePath ∈ protoKeyHits
    · rw [extractImportsE_error content filePath hk] at hl
      exact absurd hl (by simp)
    · rw [extractImportsE_eq content filePath hk] at hl
      injection hl with hl
      subst hl
      refine ⟨dedupFirst_nodup _ _, ?_, ?_⟩
      · intro s hs
        obtain ⟨hmem, -⟩ := (dedupFirst_mem _ _ _).1 hs
        simp only [applyPatterns, List.mem_flatMap, List.mem_filterMap] at hmem
        obtain ⟨p, hp, cap, hcap, hif⟩ := hmem
        by_cases hcond : (⟨cap⟩ : String) ≠ "" ∧ strStarts ⟨cap⟩ "http" = false
        · rw [if_pos hcond] at hif
          cases hif
          exact hcond
        · rw [if_neg hcond] at hif
          exact absurd hif (by simp)
      · intro h
        subst h
        have hsel : patternsFor (lastExt filePath) = [importFromP, requireP, exportFromP] ∨
            patternsFor (lastExt filePath) = jsPatterns ∨
            patternsFor (lastExt filePath) = [pyFromP, pyImportP] := by
          unfold patternsFor
          split_ifs <;>
            first
              | exact Or.inl rfl
              | exact Or.inr (Or.inl rfl)
              | exact Or.inr (Or.inr rfl)
        simp only [extractImports]
        rcases hsel with h | h | h <;> rw [h] <;> rfl
  · exact extractImportsE_error content filePath

/-- Closed instance of `C7_extractImports_spec`: the ok-result, membership
and empty-content hypotheses discharged on concrete inputs, and the error
clause exercised at a colliding extension. -/

theorem C7_extractImports_spec_witness :
    (["./a"] : List String).Nodup ∧
    (("./a" : String) ≠ "" ∧ strStarts "./a" "http" = false) ∧
    ([] : List String) = [] ∧
    extractImportsE "" "b.constructor" = Except.error () :=
  ⟨((C7_extractImports_spec "import x from \"./a\"" "a.ts").1 ["./a"] rfl).1,
   ((C7_extractImports_spec "import x from \"./a\"" "a.ts").1 ["./a"] rfl).2.1
      "./a" (List.mem_cons_self _ _),
   ((C7_extractImports_spec "" "a.ts").1 [] rfl).2.2 rfl,
   (C7_extractImports_spec "" "b.constructor").2 (by decide)⟩

/-- C7 counterexample: the source drops only specifiers starting with
`http`, so a specifier beginning with the URL scheme `ftp://` survives into
the output; and at an extension colliding with an `Object.prototype` member
the pattern lookup throws before any content inspection, so even empty
content raises a `TypeError` rather than yielding the empty list. -/

theorem C7_extractImports_counterexample :
    extractImportsE "import x from \"ftp://a/b\"" "a.ts" =
      Except.ok ["ftp://a/b"] ∧
    specBeginsWithURLScheme "ftp://a/b" = true ∧
    extractImportsE "" "x.constructor" = Except.error () :=
  ⟨rfl, rfl, rfl⟩

/-! Claims C1 and C8: invariants of the edge builder.  A single fold
invariant carries everything: every emitted edge has distinct endpoints, a
target in the known path set, a generating specifier (with the type rule the
source actually applies), and a key recorded in the seen-set; the keys of the
emitted edges are pairwise distinct. -/

theorem foldl_preserve {α σ : Type} (P : σ → Prop) (f : σ → α → σ) :
    ∀ (l : List α), (∀ s a, a ∈ l → P s → P (f s a)) →
      ∀ s, P s → P (l.foldl f s) := by
  intro l
  induction l with
  | nil => intro _ s hs; exact hs
  | cons a l ih =>
    intro h s hs
    exact ih (fun s' b hb => h s' b (List.mem_cons_of_mem a hb)) (f s a)
      (h s a (List.mem_cons_self a l) hs)

theorem impStep_inv (files : List GithubFile) (allPaths : List String)
    (f : GithubFile) (c : String) (hf : f ∈ files) (hc : f.content = some c)
    (imp : String) (himp : imp ∈ extractImports c f.path)
    (st : List String × List GraphEdge) (hinv : EdgeInv files allPaths st) :
    EdgeInv files allPaths (impStep allPaths f.path st imp) := by
  rcases hr : resolveImportPath imp f.path allPaths with _ | r
  · simpa only [impStep, hr] using hinv
  · simp only [impStep, hr]
    by_cases hneq : r ≠ f.path
    · rw [if_pos hneq]
      by_cases hseen : st.1.contains (edgeKey f.path r) = true
      · rw [if_pos hseen]
        exact hinv
      · rw [if_neg hseen]
        obtain ⟨hall, hpw⟩ := hinv
        constructor
        · intro e he
          rcases List.mem_append.1 he with he | he
          · obtain ⟨hok, hkey⟩ := hall e he
            exact ⟨hok, List.mem_cons_of_mem _ hkey⟩
          · rcases List.mem_singleton.1 he with rfl
            refine ⟨⟨fun h => hneq h.symm, resolveImportPath_mem _ _ _ _ hr,
              f, hf, c, hc, rfl, imp, himp, hr, rfl⟩, ?_⟩
            exact List.mem_cons_self _ _
        · rw [List.pairwise_append]
          refine ⟨hpw, List.pairwise_singleton _ _, ?_⟩
          intro e₁ h₁ e₂ h₂
          rcases List.mem_singleton.1 h₂ with rfl
          obtain ⟨-, hkey⟩ := hall e₁ h₁
          intro hcon
          apply hseen
          rw [List.contains_eq_any_beq]
          refine List.any_eq_true.2 ⟨edgeKey e₁.source e₁.target, hkey, ?_⟩
          simp [hcon]
    · rw [if_neg hneq]
      exact hinv

theorem edgeStep_inv (files : List GithubFile) (allPaths : List String)
    (f : GithubFile) (hf : f ∈ files)
    (st : List String × List GraphEdge) (hinv : EdgeInv files allPaths st) :
    EdgeInv files allPaths (edgeStep allPaths st f) := by
  unfold edgeStep
  rcases hc : f.content with _ | c
  · exact hinv
  · exact foldl_preserve _ _ _
      (fun s imp himp hs => impStep_inv files allPaths f c hf hc imp himp s hs)
      st hinv

theorem buildGraph_edges_inv (files : List GithubFile) :
    EdgeInv files (files.map GithubFile.path)
      (files.foldl (edgeStep (files.map GithubFile.path)) ([], [])) :=
  foldl_preserve _ _ _
    (fun s f hf hs => edgeStep_inv files _ f hf s hs)
    ([], []) ⟨by simp, List.Pairwise.nil⟩

/-- C1: every edge produced by `buildGraph` has a source different from its
target and a target in the input path set, and no two edges of the same run
share the same (source, target) pair. -/

theorem C1_buildGraph_edges_spec (files : List GithubFile) :
    (∀ e ∈ (buildGraph files).edges,
       e.source ≠ e.target ∧ e.target ∈ files.map GithubFile.path) ∧
    (buildGraph files).edges.Pairwise
      (fun e₁ e₂ => ¬(e₁.source = e₂.source ∧ e₁.target = e₂.target)) := by
  obtain ⟨hall, hpw⟩ := buildGraph_edges_inv files
  have hedges : (buildGraph files).edges =
      (files.foldl (edgeStep (files.map GithubFile.path)) ([], [])).2 := rfl
  constructor
  · intro e he
    rw [hedges] at he
    obtain ⟨⟨h1, h2, -⟩, -⟩ := hall e he
    exact ⟨h1, h2⟩
  · rw [hedges]
    refine hpw.imp ?_
    intro e₁ e₂ hk hcon
    exact hk (by rw [edgeKey, edgeKey, hcon.1, hcon.2])

/-- Closed instance of `C1_buildGraph_edges_spec`, discharging the edge
membership hypothesis on a concrete run. -/

theorem C1_buildGraph_edges_spec_witness :
    ("src/a.ts" : String) ≠ "src/b.ts" ∧
    ("src/b.ts" : String) ∈
      ([⟨"src/a.ts", some "import x from \"./b\"", none⟩,
        ⟨"src/b.ts", none, some 10⟩] : List GithubFile).map GithubFile.path := by
  have h := (C1_buildGraph_edges_spec
    [⟨"src/a.ts", some "import x from \"./b\"", none⟩,
     ⟨"src/b.ts", none, some 10⟩]).1
    { id := "src/a.ts→src/b.ts", source := "src/a.ts", target := "src/b.ts",
      type := "import" }
    (by rw [show (buildGraph
          [⟨"src/a.ts", some "import x from \"./b\"", none⟩,
           ⟨"src/b.ts", none, some 10⟩]).edges =
        [{ id := "src/a.ts→src/b.ts", source := "src/a.ts",
           target := "src/b.ts", type := "import" }] from rfl]
        exact List.mem_cons_self _ _)
  exact h

/-- C8 (amended): every edge produced by `buildGraph` is generated by some
extracted specifier of its source file, and its type is `require` exactly
when that raw specifier string contains the substring `require` (not when it
was extracted by the `require(...)` pattern), defaulting to `import`. -/

theorem C8_edgeType_spec (files : List GithubFile) :
    ∀ e ∈ (buildGraph files).edges,
      ∃ f ∈ files, ∃ c, f.content = some c ∧ e.source = f.path ∧
        ∃ imp ∈ extractImports c f.path,
          resolveImportPath imp f.path (files.map GithubFile.path) =
            some e.target ∧
          e.type = (if hasSub imp "require" then "require" else "import") := by
  intro e he
  obtain ⟨hall, -⟩ := buildGraph_edges_inv files
  have hedges : (buildGraph files).edges =
      (files.foldl (edgeStep (files.map GithubFile.path)) ([], [])).2 := rfl
  rw [hedges] at he
  obtain ⟨⟨-, -, hprov⟩, -⟩ := hall e he
  exact hprov

/-- Closed instance of `C8_edgeType_spec`, discharging the edge membership
hypothesis on a concrete run. -/

theorem C8_edgeType_spec_witness :
    ∃ f ∈ ([⟨"src/a.ts", some "import x from \"./require\"", none⟩,
            ⟨"src/require.ts", none, none⟩] : List GithubFile),
      ∃ c, f.content = some c ∧ ("src/a.ts" : String) = f.path ∧
        ∃ imp ∈ extractImports c f.path,
          resolveImportPath imp f.path ["src/a.ts", "src/require.ts"] =
            some "src/require.ts" ∧
          ("require" : String) =
            (if hasSub imp "require" then "require" else "import") :=
  C8_edgeType_spec
    [⟨"src/a.ts", some "import x from \"./require\"", none⟩,
     ⟨"src/require.ts", none, none⟩]
    { id := "src/a.ts→src/require.ts", source := "src/a.ts",
      target := "src/require.ts", type := "require" }
    (by rw [show (buildGraph
          [⟨"src/a.ts", some "import x from \"./require\"", none⟩,
           ⟨"src/require.ts", none, none⟩]).edges =
        [{ id := "src/a.ts→src/require.ts", source := "src/a.ts",
           target := "src/require.ts", type := "require" }] from rfl]
        exact List.mem_cons_self _ _)

/-- C8 counterexample: a file whose only reference is the static declaration
`import x from "./require"` (the dynamic-load pattern extracts nothing from
it) still yields an edge of type `require`, because the source inspects the
specifier text, not the extracting pattern. -/

theorem C8_edgeType_counterexample :
    (buildGraph
        [⟨"src/a.ts", some "import x from \"./require\"", none⟩,
         ⟨"src/require.ts", none, none⟩]).edges.map GraphEdge.type =
      ["require"] ∧
    runPattern requireP ("import x from \"./require\"" : String).data = [] :=
  ⟨rfl, rfl⟩

/-! Claim C4: the job state machine. -/

theorem append_ne_empty_left (s t : String) (h : s ≠ "") : s ++ t ≠ "" := by
  intro he
  have hd := congrArg String.data he
  rw [String.data_append] at hd
  have hnil := List.append_eq_nil.1 hd
  exact h (String.toList_inj.1 hnil.1)

theorem fetchTreeM_error_ne_empty (env : RunEnv) (msg : String)
    (h : fetchTreeM env = .error msg) : msg ≠ "" := by
  unfold fetchTreeM at h
  by_cases h1 : env.repoOk
  · by_cases h2 : env.treeOk
    · rw [if_neg (by simp [h1]), if_neg (by simp [h2])] at h
      cases h
    · rw [if_neg (by simp [h1]), if_pos (by simp [h2])] at h
      cases h
      exact append_ne_empty_left _ _ (by decide)
  · rw [if_pos (by simp [h1])] at h
    cases h
    exact append_ne_empty_left _ _ (by decide)

/-- C4: a job whose top-level tree fetch throws (with the PROCESSING and
FAILED writes succeeding) ends in status FAILED with a non-empty recorded
error and no persisted artifact, re-raising the error; a job that completes
every stage ends in COMPLETED with the built artifact persisted and no
error; and when the FAILED write itself fails, that secondary failure is
swallowed — the original error is still the one raised and the job keeps its
previously written PROCESSING status. -/

theorem C4_runAnalysis_spec (env : RunEnv) (s0 : JobState) :
    (env.processingOk = true → env.failedOk = true → s0.artifact = none →
      ∀ msg, fetchTreeM env = .error msg →
        (runAnalysis env s0).2.status = "FAILED" ∧
        (runAnalysis env s0).2.error = some msg ∧ msg ≠ "" ∧
        (runAnalysis env s0).2.artifact = none ∧
        (runAnalysis env s0).1 = .error msg) ∧
    (env.processingOk = true → env.upsertOk = true → env.completedOk = true →
      s0.error = none →
      ∀ items, fetchTreeM env = .ok items →
        (runAnalysis env s0).2.status = "COMPLETED" ∧
        (runAnalysis env s0).2.artifact =
          some (buildGraph (analysisFiles env items)) ∧
        (runAnalysis env s0).2.error = none ∧
        (runAnalysis env s0).1 = .ok ()) ∧
    (env.processingOk = true → env.failedOk = false →
      ∀ msg, fetchTreeM env = .error msg →
        (runAnalysis env s0).1 = .error msg ∧
        (runAnalysis env s0).2.status = "PROCESSING" ∧
        (runAnalysis env s0).2.error = s0.error ∧
        (runAnalysis env s0).2.artifact = s0.artifact) := by
  refine ⟨?_, ?_, ?_⟩
  · intro hproc hfail hart msg hfetch
    simp [runAnalysis, hproc, hfetch, recordFailure, hfail, hart,
      fetchTreeM_error_ne_empty env msg hfetch]
  · intro hproc hups hcomp herr items hfetch
    simp [runAnalysis, hproc, hfetch, hups, hcomp, herr]
  · intro hproc hfail msg hfetch
    simp [runAnalysis, hproc, hfetch, recordFailure, hfail]

/-- Closed instance of `C4_runAnalysis_spec`: all three lifecycle clauses
discharged on concrete environments. -/

theorem C4_runAnalysis_spec_witness :
    ((runAnalysis envFetchFail pendingJob).2.status = "FAILED" ∧
      (runAnalysis envFetchFail pendingJob).2.error =
        some "GitHub API error: 500" ∧ ("GitHub API error: 500" : String) ≠ "" ∧
      (runAnalysis envFetchFail pendingJob).2.artifact = none ∧
      (runAnalysis envFetchFail pendingJob).1 = .error "GitHub API error: 500") ∧
    ((runAnalysis envAllOk pendingJob).2.status = "COMPLETED" ∧
      (runAnalysis envAllOk pendingJob).2.artifact =
        some (buildGraph (analysisFiles envAllOk [])) ∧
      (runAnalysis envAllOk pendingJob).2.error = none ∧
      (runAnalysis envAllOk pendingJob).1 = .ok ()) ∧
    ((runAnalysis envSwallow pendingJob).1 = .error "GitHub API error: 500" ∧
      (runAnalysis envSwallow pendingJob).2.status = "PROCESSING" ∧
      (runAnalysis envSwallow pendingJob).2.error = pendingJob.error ∧
      (runAnalysis envSwallow pendingJob).2.artifact = pendingJob.artifact) :=
  ⟨(C4_runAnalysis_spec envFetchFail pendingJob).1 rfl rfl rfl
      "GitHub API error: 500" rfl,
   (C4_runAnalysis_spec envAllOk pendingJob).2.1 rfl rfl rfl rfl [] rfl,
   (C4_runAnalysis_spec envSwallow pendingJob).2.2 rfl rfl
      "GitHub API error: 500" rfl⟩

/-! Claim C5: the tree builder.  Observation functions on trees: `descend`
walks a segment position by child names, `leaves` lists the paths of the
file-typed nodes, `childNames` lists the names of a node's children. -/

theorem initSeg_nil {α : Type} (qs : List α) : InitSeg [] qs := ⟨qs, rfl⟩

theorem initSeg_refl {α : Type} (ps : List α) : InitSeg ps ps :=
  ⟨[], List.append_nil ps⟩

theorem initSeg_nil_right {α : Type} (ps : List α) :
    InitSeg ps [] ↔ ps = [] := by
  constructor
  · rintro ⟨ts, h⟩
    exact List.append_eq_nil.1 h |>.1
  · rintro rfl
    exact initSeg_nil []

theorem initSeg_cons_iff {α : Type} (a b : α) (ps qs : List α) :
    InitSeg (a :: ps) (b :: qs) ↔ a = b ∧ InitSeg ps qs := by
  constructor
  · rintro ⟨ts, h⟩
    rw [List.cons_append] at h
    exact ⟨(List.cons.injEq _ _ _ _ ▸ h).1,
      ⟨ts, (List.cons.injEq _ _ _ _ ▸ h).2⟩⟩
  · rintro ⟨rfl, ts, h⟩
    exact ⟨ts, by rw [List.cons_append, h]⟩

theorem initSeg_cons_nil {α : Type} (a : α) (ps : List α) :
    ¬ InitSeg (a :: ps) [] := by
  rintro ⟨ts, h⟩
  exact List.cons_ne_nil _ _ (List.append_eq_nil.1 h).1

theorem initSeg_mem {α : Type} (ps qs : List α) (h : InitSeg ps qs) :
    ∀ x ∈ ps, x ∈ qs := by
  obtain ⟨ts, rfl⟩ := h
  intro x hx
  exact List.mem_append_left ts hx

theorem initSeg_cases {α : Type} (ps qs : List α) (h : InitSeg ps qs) :
    ps = qs ∨ ∃ extra, extra ≠ [] ∧ ps ++ extra = qs := by
  obtain ⟨ts, rfl⟩ := h
  cases ts with
  | nil => exact Or.inl (List.append_nil ps).symm
  | cons a ts' => exact Or.inr ⟨a :: ts', List.cons_ne_nil a ts', rfl⟩

theorem freshChain_name (pre : List String) (part : String) :
    ∀ rest, (freshChain pre part rest).name = part := by
  intro rest
  cases rest <;> rfl

theorem insertParts_newChild_eq_freshChain :
    ∀ (rest pre : List String) (part : String),
      insertParts (pre ++ [part]) rest (newChild pre part rest) =
        freshChain pre part rest := by
  intro rest
  induction rest with
  | nil => intro pre part; rfl
  | cons r rs ih =>
    intro pre part
    show FileTreeNode.mk part (joinSlash (pre ++ [part])) "dir"
        (some (replaceOrAppend ((some ([] : List FileTreeNode)).getD []) r
          (insertParts ((pre ++ [part]) ++ [r]) rs)
          (insertParts ((pre ++ [part]) ++ [r]) rs
            (newChild (pre ++ [part]) r rs)))) none =
      freshChain pre part (r :: rs)
    rw [show ((some ([] : List FileTreeNode)).getD []) = [] from rfl]
    rw [show replaceOrAppend ([] : List FileTreeNode) r
        (insertParts ((pre ++ [part]) ++ [r]) rs)
        (insertParts ((pre ++ [part]) ++ [r]) rs (newChild (pre ++ [part]) r rs)) =
      [insertParts ((pre ++ [part]) ++ [r]) rs
        (newChild (pre ++ [part]) r rs)] from rfl]
    rw [ih (pre ++ [part]) r]
    rfl

theorem freshChain_descend_some :
    ∀ (rest pre : List String) (part : String) (qs : List String)
      (c : FileTreeNode),
      descend (freshChain pre part rest) qs = some c →
      InitSeg qs rest ∧ c.path = joinSlash (pre ++ part :: qs) ∧
      (c.type = "file" ↔ qs = rest) ∧ (childNames c).Nodup := by
  intro rest
  induction rest with
  | nil =>
    intro pre part qs c h
    cases qs with
    | nil =>
      cases h
      refine ⟨initSeg_refl _, by simp [freshChain, FileTreeNode.path], ?_, ?_⟩
      · simp [freshChain, FileTreeNode.type]
      · simp [childNames, freshChain, FileTreeNode.children]
    | cons q qs' =>
      rw [descend] at h
      simp [freshChain, FileTreeNode.children] at h
  | cons r rs ih =>
    intro pre part qs c h
    cases qs with
    | nil =>
      cases h
      refine ⟨initSeg_nil _, by simp [freshChain, FileTreeNode.path], ?_, ?_⟩
      · simp only [freshChain, FileTreeNode.type]
        constructor
        · intro h; exact absurd h (by decide)
        · intro h; exact absurd h (by simp)
      · simp [childNames, freshChain, FileTreeNode.children, List.map]
    | cons q qs' =>
      rw [descend] at h
      by_cases hq : q = r
      · subst hq
        rw [show ((freshChain pre part (q :: rs)).children.getD []).find?
              (fun c => c.name = q) = some (freshChain (pre ++ [part]) q rs) by
            simp [freshChain, FileTreeNode.children, List.find?,
              freshChain_name]] at h
        obtain ⟨h1, h2, h3, h4⟩ := ih (pre ++ [part]) q qs' c h
        refine ⟨(initSeg_cons_iff _ _ _ _).2 ⟨rfl, h1⟩, ?_, ?_, h4⟩
        · rw [h2]
          congr 1
          simp
        · rw [h3]
          constructor
          · rintro rfl; rfl
          · intro hh
            exact (List.cons.injEq _ _ _ _ ▸ hh).2
      · rw [show ((freshChain pre part (r :: rs)).children.getD []).find?
              (fun c => c.name = q) = none by
            simp [freshChain, FileTreeNode.children, List.find?,
              freshChain_name, Ne.symm hq]] at h
        cases h

theorem freshChain_descend_isSome :
    ∀ (rest pre : List String) (part : String) (qs : List String),
      (descend (freshChain pre part rest) qs).isSome = true ↔
        InitSeg qs rest := by
  intro rest
  induction rest with
  | nil =>
    intro pre part qs
    cases qs with
    | nil => simp [descend, initSeg_nil]
    | cons q qs' =>
      rw [descend]
      simp only [freshChain, FileTreeNode.children, Option.getD_none,
        List.find?_nil]
      constructor
      · intro h; simp at h
      · intro h; exact absurd h (initSeg_cons_nil _ _)
  | cons r rs ih =>
    intro pre part qs
    cases qs with
    | nil => simp [descend, initSeg_nil]
    | cons q qs' =>
      rw [descend]
      by_cases hq : q = r
      · subst hq
        rw [show ((freshChain pre part (q :: rs)).children.getD []).find?
              (fun c => c.name = q) = some (freshChain (pre ++ [part]) q rs) by
            simp [freshChain, FileTreeNode.children, List.find?,
              freshChain_name]]
        rw [ih (pre ++ [part]) q qs', initSeg_cons_iff]
        simp
      · rw [show ((freshChain pre part (r :: rs)).children.getD []).find?
              (fun c => c.name = q) = none by
            simp [freshChain, FileTreeNode.children, List.find?,
              freshChain_name, Ne.symm hq]]
        simp only [Option.isSome_none, Bool.false_eq_true, false_iff]
        rw [initSeg_cons_iff]
        intro hcon
        exact hq hcon.1

theorem freshChain_leaves :
    ∀ (rest pre : List String) (part : String),
      leaves (freshChain pre part rest) = [joinSlash (pre ++ part :: rest)] := by
  intro rest
  induction rest with
  | nil => intro pre part; simp [freshChain, leaves]
  | cons r rs ih =>
    intro pre part
    show leaves (.mk part (joinSlash (pre ++ [part])) "dir"
      (some [freshChain (pre ++ [part]) r rs]) none) = _
    rw [leaves]
    rw [if_neg (by decide)]
    rw [leavesL, leavesL, ih (pre ++ [part]) r]
    simp

theorem insertParts_name (pre parts : List String) (t : FileTreeNode) :
    (insertParts pre parts t).name = t.name := by
  cases parts with
  | nil => rfl
  | cons part rest => cases t with | mk n p ty cs lg => rfl

theorem insertParts_path (pre parts : List String) (t : FileTreeNode) :
    (insertParts pre parts t).path = t.path := by
  cases parts with
  | nil => rfl
  | cons part rest => cases t with | mk n p ty cs lg => rfl

theorem insertParts_type (pre parts : List String) (t : FileTreeNode) :
    (insertParts pre parts t).type = t.type := by
  cases parts with
  | nil => rfl
  | cons part rest => cases t with | mk n p ty cs lg => rfl

theorem leaves_mk (n p ty : String) (cs : Option (List FileTreeNode))
    (lg : Option String) :
    leaves (.mk n p ty cs lg) =
      (if ty = "file" then [p] else []) ++ leavesL (cs.getD []) := by
  cases cs with
  | none => simp [leaves, leavesL]
  | some cs' => rfl

/-- `insertParts` on a nonempty segment list, with the fresh chain in normal
form. -/

theorem insertParts_cons (pre : List String) (part : String)
    (rest : List String) (n p ty : String) (cs : Option (List FileTreeNode))
    (lg : Option String) :
    insertParts pre (part :: rest) (.mk n p ty cs lg) =
      .mk n p ty
        (some (replaceOrAppend (cs.getD []) part
          (insertParts (pre ++ [part]) rest)
          (freshChain pre part rest))) lg := by
  rw [insertParts, insertParts_newChild_eq_freshChain]

theorem replaceOrAppend_find_other (cs : List FileTreeNode) (part : String)
    (f : FileTreeNode → FileTreeNode) (chain : FileTreeNode)
    (hf : ∀ x, (f x).name = x.name) (hchain : chain.name = part)
    (q : String) (hq : q ≠ part) :
    (replaceOrAppend cs part f chain).find? (fun c => c.name = q) =
      cs.find? (fun c => c.name = q) := by
  induction cs with
  | nil => simp [replaceOrAppend, List.find?, hchain, Ne.symm hq]
  | cons c₀ cs' ih =>
    rw [replaceOrAppend]
    by_cases hc : c₀.name = part
    · rw [if_pos hc]
      rw [List.find?_cons, List.find?_cons]
      simp [hf c₀, hc, Ne.symm hq]
    · rw [if_neg hc]
      rw [List.find?_cons, List.find?_cons]
      by_cases hcq : c₀.name = q
      · simp [hcq]
      · simp [hcq, ih]

theorem replaceOrAppend_find_found (cs : List FileTreeNode) (part : String)
    (f : FileTreeNode → FileTreeNode) (chain : FileTreeNode)
    (c : FileTreeNode) (hf : ∀ x, (f x).name = x.name)
    (h : cs.find? (fun x => x.name = part) = some c) :
    (replaceOrAppend cs part f chain).find? (fun x => x.name = part) =
      some (f c) := by
  induction cs with
  | nil => simp [List.find?] at h
  | cons c₀ cs' ih =>
    rw [List.find?_cons] at h
    by_cases hc : c₀.name = part
    · have hceq : c₀ = c := by simpa [hc] using h
      subst hceq
      rw [replaceOrAppend, if_pos hc, List.find?_cons]
      simp [hf c₀, hc]
    · have h' : cs'.find? (fun x => x.name = part) = some c := by
        simpa [hc] using h
      rw [replaceOrAppend, if_neg hc, List.find?_cons]
      simp [hc, ih h']

theorem replaceOrAppend_find_none (cs : List FileTreeNode) (part : String)
    (f : FileTreeNode → FileTreeNode) (chain : FileTreeNode)
    (hchain : chain.name = part)
    (h : cs.find? (fun x => x.name = part) = none) :
    (replaceOrAppend cs part f chain).find? (fun x => x.name = part) =
      some chain := by
  induction cs with
  | nil => simp [replaceOrAppend, List.find?, hchain]
  | cons c₀ cs' ih =>
    rw [List.find?_cons] at h
    by_cases hc : c₀.name = part
    · simp [hc] at h
    · have h' : cs'.find? (fun x => x.name = part) = none := by
        simpa [hc] using h
      rw [replaceOrAppend, if_neg hc, List.find?_cons]
      simp [hc, ih h']

theorem replaceOrAppend_names (cs : List FileTreeNode) (part : String)
    (f : FileTreeNode → FileTreeNode) (chain : FileTreeNode)
    (hf : ∀ x, (f x).name = x.name) (hchain : chain.name = part) :
    (replaceOrAppend cs part f chain).map FileTreeNode.name =
      if (cs.find? (fun x => x.name = part)).isSome then
        cs.map FileTreeNode.name
      else cs.map FileTreeNode.name ++ [part] := by
  induction cs with
  | nil => simp [replaceOrAppend, List.find?, hchain]
  | cons c₀ cs' ih =>
    rw [replaceOrAppend, List.find?_cons]
    by_cases hc : c₀.name = part
    · simp [hc, hf c₀]
    · by_cases hs : (cs'.find? (fun x => x.name = part)).isSome
      · simp [hc, hs, ih]
      · simp [hc, hs] at ih ⊢
        exact ih

theorem replaceOrAppend_leavesL_eq (cs : List FileTreeNode) (part : String)
    (f : FileTreeNode → FileTreeNode) (chain : FileTreeNode)
    (c : FileTreeNode) (h : cs.find? (fun x => x.name = part) = some c)
    (hleq : leaves (f c) = leaves c) :
    leavesL (replaceOrAppend cs part f chain) = leavesL cs := by
  induction cs with
  | nil => simp [List.find?] at h
  | cons c₀ cs' ih =>
    rw [List.find?_cons] at h
    by_cases hc : c₀.name = part
    · have hceq : c₀ = c := by simpa [hc] using h
      subst hceq
      rw [replaceOrAppend, if_pos hc, leavesL, leavesL, hleq]
    · have h' : cs'.find? (fun x => x.name = part) = some c := by
        simpa [hc] using h
      rw [replaceOrAppend, if_neg hc, leavesL, leavesL, ih h']

theorem replaceOrAppend_leavesL_perm (cs : List FileTreeNode) (part : String)
    (f : FileTreeNode → FileTreeNode) (chain : FileTreeNode)
    (c : FileTreeNode) (x : String)
    (h : cs.find? (fun y => y.name = part) = some c)
    (hlp : List.Perm (leaves (f c)) (x :: leaves c)) :
    List.Perm (leavesL (replaceOrAppend cs part f chain)) (x :: leavesL cs) := by
  induction cs with
  | nil => simp [List.find?] at h
  | cons c₀ cs' ih =>
    rw [List.find?_cons] at h
    by_cases hc : c₀.name = part
    · have hceq : c₀ = c := by simpa [hc] using h
      subst hceq
      rw [replaceOrAppend, if_pos hc, leavesL, leavesL]
      have h1 : List.Perm (leaves (f c₀) ++ leavesL cs')
          ((x :: leaves c₀) ++ leavesL cs') := hlp.append_right _
      simpa using h1
    · have h' : cs'.find? (fun y => y.name = part) = some c := by
        simpa [hc] using h
      rw [replaceOrAppend, if_neg hc, leavesL, leavesL]
      have h1 : List.Perm (leaves c₀ ++ leavesL (replaceOrAppend cs' part f chain))
          (leaves c₀ ++ (x :: leavesL cs')) := (ih h').append_left _
      exact h1.trans List.perm_middle

theorem replaceOrAppend_leavesL_none (cs : List FileTreeNode) (part : String)
    (f : FileTreeNode → FileTreeNode) (chain : FileTreeNode)
    (h : cs.find? (fun x => x.name = part) = none) :
    leavesL (replaceOrAppend cs part f chain) = leavesL cs ++ leaves chain := by
  induction cs with
  | nil => simp [replaceOrAppend, leavesL]
  | cons c₀ cs' ih =>
    rw [List.find?_cons] at h
    by_cases hc : c₀.name = part
    · simp [hc] at h
    · have h' : cs'.find? (fun x => x.name = part) = none := by
        simpa [hc] using h
      rw [replaceOrAppend, if_neg hc, leavesL, leavesL, ih h',
        List.append_assoc]

theorem descend_nil (t : FileTreeNode) : descend t [] = some t := rfl

theorem descend_mk_cons (n p ty : String) (cs : Option (List FileTreeNode))
    (lg : Option String) (q : String) (qs : List String) :
    descend (.mk n p ty cs lg) (q :: qs) =
      match (cs.getD []).find? (fun c => c.name = q) with
      | none => none
      | some c => descend c qs := rfl

theorem descend_cons_some (n p ty : String) (cs : Option (List FileTreeNode))
    (lg : Option String) (q : String) (qs : List String) (c : FileTreeNode)
    (h : (cs.getD []).find? (fun x => x.name = q) = some c) :
    descend (.mk n p ty cs lg) (q :: qs) = descend c qs := by
  rw [descend_mk_cons, h]

theorem descend_cons_none (n p ty : String) (cs : Option (List FileTreeNode))
    (lg : Option String) (q : String) (qs : List String)
    (h : (cs.getD []).find? (fun x => x.name = q) = none) :
    descend (.mk n p ty cs lg) (q :: qs) = none := by
  rw [descend_mk_cons, h]

/-- Positions whose head differs from the inserted head segment are
untouched by an insertion. -/

theorem insertParts_descend_other (pre : List String) (part : String)
    (rest : List String) (t : FileTreeNode) (q : String) (qs : List String)
    (hq : q ≠ part) :
    descend (insertParts pre (part :: rest) t) (q :: qs) =
      descend t (q :: qs) := by
  cases t with
  | mk n p ty cs lg =>
    rw [insertParts_cons, descend_mk_cons, descend_mk_cons]
    rw [show ((some (replaceOrAppend (cs.getD []) part
        (insertParts (pre ++ [part]) rest)
        (freshChain pre part rest))).getD []) =
      replaceOrAppend (cs.getD []) part
        (insertParts (pre ++ [part]) rest)
        (freshChain pre part rest) from rfl]
    rw [replaceOrAppend_find_other _ _ _ _
      (fun x => insertParts_name _ _ x) (freshChain_name _ _ _) q hq]

/-- Inserting a position that already exists does not change the leaf
list at all. -/

theorem insertParts_leaves_of_isSome :
    ∀ (parts pre : List String) (t : FileTreeNode),
      (descend t parts).isSome = true →
      leaves (insertParts pre parts t) = leaves t := by
  intro parts
  induction parts with
  | nil => intro pre t _; rfl
  | cons part rest ih =>
    intro pre t h
    cases t with
    | mk n p ty cs lg =>
      rcases hfind : (cs.getD []).find? (fun x => x.name = part) with _ | c
      · rw [descend_cons_none _ _ _ _ _ _ _ hfind] at h
        simp at h
      · rw [descend_cons_some _ _ _ _ _ _ _ _ hfind] at h
        rw [insertParts_cons, leaves_mk, leaves_mk]
        congr 1
        exact replaceOrAppend_leavesL_eq _ _ _ _ c hfind (ih (pre ++ [part]) c h)

/-- Inserting a missing position adds exactly one leaf, at the joined
path. -/

theorem insertParts_leaves_of_none :
    ∀ (parts pre : List String) (t : FileTreeNode),
      descend t parts = none → parts ≠ [] →
      List.Perm (leaves (insertParts pre parts t))
        (joinSlash (pre ++ parts) :: leaves t) := by
  intro parts
  induction parts with
  | nil => intro pre t _ hne; exact absurd rfl hne
  | cons part rest ih =>
    intro pre t h _
    cases t with
    | mk n p ty cs lg =>
      rcases hfind : (cs.getD []).find? (fun x => x.name = part) with _ | c
      · rw [insertParts_cons, leaves_mk, leaves_mk]
        rw [show ((some (replaceOrAppend (cs.getD []) part
            (insertParts (pre ++ [part]) rest)
            (freshChain pre part rest))).getD []) =
          replaceOrAppend (cs.getD []) part
            (insertParts (pre ++ [part]) rest)
            (freshChain pre part rest) from rfl]
        rw [replaceOrAppend_leavesL_none _ _ _ _ hfind, freshChain_leaves]
        have h1 : (if ty = "file" then [p] else []) ++
            (leavesL (cs.getD []) ++ [joinSlash (pre ++ part :: rest)]) =
            ((if ty = "file" then [p] else []) ++ leavesL (cs.getD [])) ++
              [joinSlash (pre ++ part :: rest)] := by
          rw [List.append_assoc]
        rw [h1]
        exact List.perm_append_singleton _ _
      · rw [descend_cons_some _ _ _ _ _ _ _ _ hfind] at h
        have hrest : rest ≠ [] := by
          intro hr
          subst hr
          rw [descend_nil] at h
          cases h
        have hperm := ih (pre ++ [part]) c h hrest
        have hjp : joinSlash ((pre ++ [part]) ++ rest) =
            joinSlash (pre ++ part :: rest) := by
          rw [List.append_assoc]
          rfl
        rw [hjp] at hperm
        rw [insertParts_cons, leaves_mk, leaves_mk]
        have hra := replaceOrAppend_leavesL_perm (cs.getD []) part
          (insertParts (pre ++ [part]) rest) (freshChain pre part rest)
          c (joinSlash (pre ++ part :: rest)) hfind hperm
        exact (hra.append_left _).trans List.perm_middle

/-- Existence of positions after an insertion: the old positions plus the
initial segments of the inserted position. -/

theorem insertParts_descend_isSome :
    ∀ (parts pre qs : List String) (t : FileTreeNode),
      (descend (insertParts pre parts t) qs).isSome = true ↔
        (descend t qs).isSome = true ∨ InitSeg qs parts := by
  intro parts
  induction parts with
  | nil =>
    intro pre qs t
    show (descend t qs).isSome = true ↔ _
    cases qs with
    | nil => simp [descend_nil, initSeg_refl]
    | cons q qs' => simp [initSeg_cons_nil q qs']
  | cons part rest ih =>
    intro pre qs t
    cases t with
    | mk n p ty cs lg =>
      cases qs with
      | nil => simp [descend_nil, initSeg_nil]
      | cons q qs' =>
        by_cases hq : q = part
        · subst hq
          rcases hfind : (cs.getD []).find? (fun x => x.name = q) with _ | c
          · rw [insertParts_cons,
              descend_cons_some _ _ _ _ _ _ _ _
                (replaceOrAppend_find_none _ _ _ _ (freshChain_name _ _ _) hfind),
              descend_cons_none _ _ _ _ _ _ _ hfind]
            rw [freshChain_descend_isSome]
            simp [initSeg_cons_iff]
          · rw [insertParts_cons,
              descend_cons_some _ _ _ _ _ _ _ _
                (replaceOrAppend_find_found _ _ _ _ c
                  (fun x => insertParts_name _ _ x) hfind),
              descend_cons_some _ _ _ _ _ _ _ _ hfind]
            rw [ih (pre ++ [q]) qs' c]
            simp [initSeg_cons_iff]
        · rw [insertParts_descend_other pre part rest _ q qs' hq]
          constructor
          · exact Or.inl
          · rintro (h | h)
            · exact h
            · exact absurd ((initSeg_cons_iff _ _ _ _).1 h).1 hq

/-- Nodes present before an insertion keep their name, path and type. -/

theorem insertParts_descend_of_some :
    ∀ (parts pre qs : List String) (t c : FileTreeNode),
      descend t qs = some c →
      ∃ c', descend (insertParts pre parts t) qs = some c' ∧
        c'.name = c.name ∧ c'.path = c.path ∧ c'.type = c.type := by
  intro parts
  induction parts with
  | nil => intro pre qs t c h; exact ⟨c, h, rfl, rfl, rfl⟩
  | cons part rest ih =>
    intro pre qs t c h
    cases t with
    | mk n p ty cs lg =>
      cases qs with
      | nil =>
        rw [descend_nil] at h
        cases h
        exact ⟨insertParts pre (part :: rest) (.mk n p ty cs lg), descend_nil _,
          insertParts_name _ _ _, insertParts_path _ _ _, insertParts_type _ _ _⟩
      | cons q qs' =>
        rcases hfind : (cs.getD []).find? (fun x => x.name = q) with _ | c₀
        · rw [descend_cons_none _ _ _ _ _ _ _ hfind] at h
          cases h
        · rw [descend_cons_some _ _ _ _ _ _ _ _ hfind] at h
          by_cases hq : q = part
          · subst hq
            obtain ⟨c', hd, hn, hp, hty⟩ := ih (pre ++ [q]) qs' c₀ c h
            refine ⟨c', ?_, hn, hp, hty⟩
            rw [insertParts_cons,
              descend_cons_some _ _ _ _ _ _ _ _
                (replaceOrAppend_find_found _ _ _ _ c₀
                  (fun x => insertParts_name _ _ x) hfind)]
            exact hd
          · refine ⟨c, ?_, rfl, rfl, rfl⟩
            rw [insertParts_descend_other pre part rest _ q qs' hq]
            rw [descend_cons_some _ _ _ _ _ _ _ _ hfind]
            exact h

/-- Nodes absent before an insertion and present after it lie on the
inserted chain: they sit at an initial segment of the inserted position,
carry the joined path, and are file-typed exactly at the full position. -/

theorem insertParts_descend_new :
    ∀ (parts pre qs : List String) (t c' : FileTreeNode),
      descend t qs = none →
      descend (insertParts pre parts t) qs = some c' →
      InitSeg qs parts ∧ qs ≠ [] ∧ c'.path = joinSlash (pre ++ qs) ∧
      (c'.type = "file" ↔ qs = parts) := by
  intro parts
  induction parts with
  | nil =>
    intro pre qs t c' h h'
    rw [show insertParts pre [] t = t from rfl] at h'
    rw [h] at h'
    cases h'
  | cons part rest ih =>
    intro pre qs t c' h h'
    cases t with
    | mk n p ty cs lg =>
      cases qs with
      | nil =>
        rw [descend_nil] at h
        cases h
      | cons q qs' =>
        by_cases hq : q = part
        · subst hq
          rcases hfind : (cs.getD []).find? (fun x => x.name = q) with _ | c₀
          · rw [insertParts_cons,
              descend_cons_some _ _ _ _ _ _ _ _
                (replaceOrAppend_find_none _ _ _ _ (freshChain_name _ _ _)
                  hfind)] at h'
            obtain ⟨h1, h2, h3, -⟩ := freshChain_descend_some rest pre q qs' c' h'
            refine ⟨(initSeg_cons_iff _ _ _ _).2 ⟨rfl, h1⟩, by simp, h2, ?_⟩
            rw [h3]
            constructor
            · rintro rfl; rfl
            · intro hh; exact (List.cons.injEq _ _ _ _ ▸ hh).2
          · rw [descend_cons_some _ _ _ _ _ _ _ _ hfind] at h
            rw [insertParts_cons,
              descend_cons_some _ _ _ _ _ _ _ _
                (replaceOrAppend_find_found _ _ _ _ c₀
                  (fun x => insertParts_name _ _ x) hfind)] at h'
            obtain ⟨h1, h2, h3, h4⟩ := ih (pre ++ [q]) qs' c₀ c' h h'
            refine ⟨(initSeg_cons_iff _ _ _ _).2 ⟨rfl, h1⟩, by simp, ?_, ?_⟩
            · rw [h3, List.append_assoc]
              rfl
            · rw [h4]
              constructor
              · rintro rfl; rfl
              · intro hh; exact (List.cons.injEq _ _ _ _ ▸ hh).2
        · rw [insertParts_descend_other pre part rest _ q qs' hq] at h'
          rw [h] at h'
          cases h'

/-- Every node reachable in the chain below a fresh child has duplicate-free
child names (it has at most one child). -/

theorem freshChain_descend_nodup :
    ∀ (rest pre : List String) (part : String) (qs : List String)
      (c : FileTreeNode),
      descend (freshChain pre part rest) qs = some c →
      (childNames c).Nodup := by
  intro rest pre part qs c h
  exact (freshChain_descend_some rest pre part qs c h).2.2.2

/-- Insertion preserves the everywhere-duplicate-free-children property. -/

theorem insertParts_nodup_names :
    ∀ (parts pre : List String) (t : FileTreeNode),
      (∀ qs c, descend t qs = some c → (childNames c).Nodup) →
      ∀ qs c', descend (insertParts pre parts t) qs = some c' →
        (childNames c').Nodup := by
  intro parts
  induction parts with
  | nil => intro pre t hyp qs c' h; exact hyp qs c' h
  | cons part rest ih =>
    intro pre t hyp qs c' h
    cases t with
    | mk n p ty cs lg =>
      cases qs with
      | nil =>
        rw [insertParts_cons, descend_nil] at h
        cases h
        show (((some (replaceOrAppend (cs.getD []) part
            (insertParts (pre ++ [part]) rest)
            (freshChain pre part rest))).getD []).map FileTreeNode.name).Nodup
        rw [show ((some (replaceOrAppend (cs.getD []) part
            (insertParts (pre ++ [part]) rest)
            (freshChain pre part rest))).getD []) =
          replaceOrAppend (cs.getD []) part
            (insertParts (pre ++ [part]) rest)
            (freshChain pre part rest) from rfl]
        rw [replaceOrAppend_names _ _ _ _
          (fun x => insertParts_name _ _ x) (freshChain_name _ _ _)]
        have hroot : ((cs.getD []).map FileTreeNode.name).Nodup :=
          hyp [] _ (descend_nil _)
        by_cases hs : ((cs.getD []).find? (fun x => x.name = part)).isSome
        · rw [if_pos hs]
          exact hroot
        · rw [if_neg hs]
          have hnone : (cs.getD []).find? (fun x => x.name = part) = none :=
            Option.not_isSome_iff_eq_none.1 hs
          have hnotin : part ∉ (cs.getD []).map FileTreeNode.name := by
            intro hmem
            obtain ⟨x, hx, hxn⟩ := List.mem_map.1 hmem
            have := List.find?_eq_none.1 hnone x hx
            simp [hxn] at this
          simp [List.nodup_append, hroot, hnotin]
      | cons q qs' =>
        by_cases hq : q = part
        · subst hq
          rcases hfind : (cs.getD []).find? (fun x => x.name = q) with _ | c₀
          · rw [insertParts_cons,
              descend_cons_some _ _ _ _ _ _ _ _
                (replaceOrAppend_find_none _ _ _ _ (freshChain_name _ _ _)
                  hfind)] at h
            exact freshChain_descend_nodup rest pre q qs' c' h
          · rw [insertParts_cons,
              descend_cons_some _ _ _ _ _ _ _ _
                (replaceOrAppend_find_found _ _ _ _ c₀
                  (fun x => insertParts_name _ _ x) hfind)] at h
            refine ih (pre ++ [q]) c₀ ?_ qs' c' h
            intro qs₂ c₂ h₂
            exact hyp (q :: qs₂) c₂
              (by rw [descend_cons_some _ _ _ _ _ _ _ _ hfind]; exact h₂)
        · rw [insertParts_descend_other pre part rest _ q qs' hq] at h
          exact hyp (q :: qs') c' h

theorem joinCh_append (sep : Char) :
    ∀ (a b : List (List Char)), a ≠ [] → b ≠ [] →
      joinCh sep (a ++ b) = joinCh sep a ++ sep :: joinCh sep b := by
  intro a
  induction a with
  | nil => intro b h _; exact absurd rfl h
  | cons g a' ih =>
    intro b _ hb
    cases a' with
    | nil =>
      cases b with
      | nil => exact absurd rfl hb
      | cons g₂ gs => rfl
    | cons g₂ a'' =>
      have := ih b (List.cons_ne_nil g₂ a'') hb
      show joinCh sep (g :: ((g₂ :: a'') ++ b)) = _
      rw [show joinCh sep (g :: ((g₂ :: a'') ++ b)) =
        g ++ sep :: joinCh sep ((g₂ :: a'') ++ b) from rfl]
      rw [this]
      show _ = (g ++ sep :: joinCh sep (g₂ :: a'')) ++ sep :: joinCh sep b
      simp

theorem joinSlash_append (a b : List String) (ha : a ≠ []) (hb : b ≠ []) :
    joinSlash (a ++ b) = joinSlash a ++ "/" ++ joinSlash b := by
  simp only [joinSlash, List.map_append]
  rw [joinCh_append '/' _ _ (by simpa using ha) (by simpa using hb)]
  apply String.toList_inj.1
  show _ = String.toList (String.mk _ ++ "/" ++ String.mk _)
  simp [String.toList, String.data_append]

theorem list_lt_append_cons (l : List Char) (x : Char) (t : List Char) :
    l < l ++ x :: t := by
  induction l with
  | nil => exact List.nil_lt_cons x t
  | cons c l' ih => exact List.Lex.cons ih

theorem string_lt_extend (p rest : String) : p < p ++ "/" ++ rest := by
  rw [String.lt_iff_toList_lt]
  have hdata : (p ++ "/" ++ rest).toList = p.toList ++ '/' :: rest.toList := by
    simp [String.toList, String.data_append]
  rw [hdata]
  exact list_lt_append_cons p.toList '/' rest.toList

theorem treeInv_root : TreeInv [] treeRoot := by
  have hroot_cons : ∀ (q : String) (qs' : List String),
      descend treeRoot (q :: qs') = none :=
    fun q qs' => descend_cons_none _ _ _ _ _ _ _ rfl
  refine ⟨?_, ?_, ?_, ?_, ?_⟩
  · intro qs hqs
    cases qs with
    | nil => exact absurd rfl hqs
    | cons q qs' =>
      rw [hroot_cons q qs']
      simp
  · intro qs c hqs hd
    cases qs with
    | nil => exact absurd rfl hqs
    | cons q qs' =>
      rw [hroot_cons q qs'] at hd
      cases hd
  · intro qs c hqs hd
    cases qs with
    | nil => exact absurd rfl hqs
    | cons q qs' =>
      rw [hroot_cons q qs'] at hd
      cases hd
  · intro qs c hd
    cases qs with
    | nil =>
      rw [descend_nil] at hd
      cases hd
      simp [childNames, treeRoot, FileTreeNode.children]
    | cons q qs' =>
      rw [hroot_cons q qs'] at hd
      cases hd
  · intro x
    show (leaves treeRoot).count x = _
    rw [show leaves treeRoot = [] from rfl]
    simp

theorem treeInv_insert (P : List String) (t : FileTreeNode) (p : String)
    (hsorted : ∀ q ∈ P, q ≤ p) (hinv : TreeInv P t) :
    TreeInv (P ++ [p]) (insertParts [] (splitSlash p) t) := by
  obtain ⟨hA, hB, hC, hD, hF⟩ := hinv
  have hpsne : splitSlash p ≠ [] := splitSlash_ne_nil p
  have hpsfree : ∀ x ∈ splitSlash p, SegFree x := splitSlash_segFree p
  have hjps : joinSlash (splitSlash p) = p := joinSlash_splitSlash p
  have hexists_iff : (descend t (splitSlash p)).isSome = true ↔ p ∈ P := by
    rw [hA (splitSlash p) hpsne]
    constructor
    · rintro ⟨q, hq, hseg⟩
      rcases initSeg_cases _ _ hseg with heq | ⟨extra, hex, hext⟩
      · have : q = p := by rw [← joinSlash_splitSlash q, ← heq, hjps]
        exact this ▸ hq
      · exfalso
        have hq' : joinSlash (splitSlash p ++ extra) = q := by
          rw [hext, joinSlash_splitSlash]
        have hlt : p < q := by
          rw [← hq', joinSlash_append (splitSlash p) extra hpsne hex, hjps]
          exact string_lt_extend p _
        exact not_le_of_lt hlt (hsorted q hq)
    · intro hp
      exact ⟨p, hp, initSeg_refl (splitSlash p)⟩
  refine ⟨?_, ?_, ?_, ?_, ?_⟩
  · intro qs hqs
    rw [insertParts_descend_isSome (splitSlash p) [] qs t, hA qs hqs]
    constructor
    · rintro (⟨q, hq, hseg⟩ | hseg)
      · exact ⟨q, List.mem_append_left _ hq, hseg⟩
      · exact ⟨p, List.mem_append_right _ (by simp), hseg⟩
    · rintro ⟨q, hq, hseg⟩
      rcases List.mem_append.1 hq with hq | hq
      · exact Or.inl ⟨q, hq, hseg⟩
      · rcases List.mem_singleton.1 hq with rfl
        exact Or.inr hseg
  · intro qs c' hqs hd
    rcases hold : descend t qs with _ | c
    · obtain ⟨-, -, hpath, -⟩ :=
        insertParts_descend_new (splitSlash p) [] qs t c' hold hd
      simpa using hpath
    · obtain ⟨c'', hd', -, hp2, -⟩ :=
        insertParts_descend_of_some (splitSlash p) [] qs t c hold
      rw [hd] at hd'
      cases hd'
      rw [hp2]
      exact hB qs c hqs hold
  · intro qs c' hqs hd
    rcases hold : descend t qs with _ | c
    · obtain ⟨hseg, -, -, htyp⟩ :=
        insertParts_descend_new (splitSlash p) [] qs t c' hold hd
      rw [htyp]
      have hqsfree : ∀ x ∈ qs, SegFree x :=
        fun x hx => hpsfree x (initSeg_mem _ _ hseg x hx)
      have hsplit : splitSlash (joinSlash qs) = qs :=
        splitSlash_joinSlash qs hqs hqsfree
      constructor
      · rintro rfl
        rw [hjps]
        exact List.mem_append_right _ (by simp)
      · intro hmem
        rcases List.mem_append.1 hmem with hmem | hmem
        · exfalso
          have : (descend t qs).isSome = true :=
            (hA qs hqs).2 ⟨joinSlash qs, hmem,
              by rw [hsplit]; exact initSeg_refl qs⟩
          rw [hold] at this
          simp at this
        · have heq : joinSlash qs = p := List.mem_singleton.1 hmem
          rw [← hsplit, heq]
    · obtain ⟨c'', hd', -, -, hty⟩ :=
        insertParts_descend_of_some (splitSlash p) [] qs t c hold
      rw [hd] at hd'
      cases hd'
      rw [hty, hC qs c hqs hold]
      constructor
      · intro h
        exact List.mem_append_left _ h
      · intro h
        rcases List.mem_append.1 h with h | h
        · exact h
        · have heq : joinSlash qs = p := List.mem_singleton.1 h
          have hsome : (descend t qs).isSome = true := by
            rw [hold]; rfl
          obtain ⟨q, hq, hseg⟩ := (hA qs hqs).1 hsome
          have hqsfree : ∀ x ∈ qs, SegFree x :=
            fun x hx => splitSlash_segFree q x (initSeg_mem _ _ hseg x hx)
          have hsplit : splitSlash (joinSlash qs) = qs :=
            splitSlash_joinSlash qs hqs hqsfree
          have hqps : qs = splitSlash p := by rw [← hsplit, heq]
          have hpP : p ∈ P := hexists_iff.1 (by rw [← hqps]; exact hsome)
          rw [heq]
          exact hpP
  · exact insertParts_nodup_names (splitSlash p) [] t hD
  · intro x
    by_cases hex : (descend t (splitSlash p)).isSome = true
    · rw [insertParts_leaves_of_isSome (splitSlash p) [] t hex, hF x]
      have hpP : p ∈ P := hexists_iff.1 hex
      by_cases hx : x ∈ P
      · rw [if_pos hx, if_pos (List.mem_append_left _ hx)]
      · rw [if_neg hx, if_neg ?_]
        intro hcon
        rcases List.mem_append.1 hcon with h | h
        · exact hx h
        · rcases List.mem_singleton.1 h with rfl
          exact hx hpP
    · have hnone : descend t (splitSlash p) = none := by
        rcases hd : descend t (splitSlash p) with _ | c
        · rfl
        · exact absurd (by rw [hd]; rfl) hex
      have hperm := insertParts_leaves_of_none (splitSlash p) [] t hnone hpsne
      rw [hperm.count_eq x, List.count_cons]
      have hjp : joinSlash ([] ++ splitSlash p) = p := by
        rw [List.nil_append]
        exact hjps
      rw [hjp, hF x]
      have hpnP : p ∉ P := by
        intro hcon
        have := hexists_iff.2 hcon
        rw [hnone] at this
        simp at this
      by_cases hx : x = p
      · subst hx
        rw [if_neg hpnP, if_pos (List.mem_append_right _ (by simp))]
        simp
      · have hxp : (p == x) = false := beq_eq_false_iff_ne.2 (Ne.symm hx)
        rw [hxp]
        simp only [Bool.false_eq_true, if_false, Nat.add_zero]
        by_cases hxP : x ∈ P
        · rw [if_pos hxP, if_pos (List.mem_append_left _ hxP)]
        · rw [if_neg hxP, if_neg ?_]
          intro hcon
          rcases List.mem_append.1 hcon with h | h
          · exact hxP h
          · exact hx (List.mem_singleton.1 h)

theorem treeInv_fold :
    ∀ (S P : List String) (t : FileTreeNode),
      TreeInv P t → List.Pairwise (· ≤ ·) (P ++ S) →
      TreeInv (P ++ S)
        (S.foldl (fun t p => insertParts [] (splitSlash p) t) t) := by
  intro S
  induction S with
  | nil => intro P t h _; simpa using h
  | cons p S' ih =>
    intro P t h hp
    have hsorted : ∀ q ∈ P, q ≤ p := by
      intro q hq
      exact (List.pairwise_append.1 hp).2.2 q hq p (List.mem_cons_self p S')
    have hstep := treeInv_insert P t p hsorted h
    have hp' : List.Pairwise (· ≤ ·) ((P ++ [p]) ++ S') := by
      rw [List.append_assoc]
      simpa using hp
    have hres := ih (P ++ [p]) _ hstep hp'
    rw [List.append_assoc] at hres
    simpa using hres

theorem foldl_insert_type :
    ∀ (S : List String) (t : FileTreeNode),
      (S.foldl (fun t p => insertParts [] (splitSlash p) t) t).type = t.type := by
  intro S
  induction S with
  | nil => intro t; rfl
  | cons p S' ih =>
    intro t
    rw [List.foldl_cons, ih, insertParts_type]

/-- C5: `buildFileTree` yields a tree whose root is a directory, whose
file-typed leaves are exactly the input paths (each exactly once), in which
no node has two children of the same name (directories are created at most
once), and which is invariant under permutation of the input list. -/

theorem C5_buildFileTree_spec (paths : List String) :
    (buildFileTree paths).type = "dir" ∧
    (leaves (buildFileTree paths)).Nodup ∧
    (∀ x, x ∈ leaves (buildFileTree paths) ↔ x ∈ paths) ∧
    (∀ qs c, descend (buildFileTree paths) qs = some c →
       (childNames c).Nodup) ∧
    (∀ paths', List.Perm paths paths' →
       buildFileTree paths = buildFileTree paths') := by
  have hsorted : List.Pairwise (· ≤ ·) (List.insertionSort (· ≤ ·) paths) :=
    List.sorted_insertionSort _ paths
  have hinv := treeInv_fold (List.insertionSort (· ≤ ·) paths) [] treeRoot
    treeInv_root (by simpa using hsorted)
  rw [List.nil_append] at hinv
  obtain ⟨hA, hB, hC, hD, hF⟩ := hinv
  have hbt : buildFileTree paths =
      (List.insertionSort (· ≤ ·) paths).foldl
        (fun t p => insertParts [] (splitSlash p) t) treeRoot := rfl
  refine ⟨?_, ?_, ?_, ?_, ?_⟩
  · rw [hbt, foldl_insert_type]
    rfl
  · rw [hbt, List.nodup_iff_count_le_one]
    intro a
    rw [hF a]
    split_ifs <;> simp
  · intro x
    rw [hbt]
    have hcount := hF x
    have hmem : x ∈ List.insertionSort (· ≤ ·) paths ↔ x ∈ paths :=
      (List.perm_insertionSort _ paths).mem_iff
    constructor
    · intro hmem'
      have hpos : 0 < (leaves ((List.insertionSort (· ≤ ·) paths).foldl
          (fun t p => insertParts [] (splitSlash p) t) treeRoot)).count x :=
        List.count_pos_iff.2 hmem'
      rw [hcount] at hpos
      by_cases h : x ∈ List.insertionSort (· ≤ ·) paths
      · exact hmem.1 h
      · rw [if_neg h] at hpos
        exact absurd hpos (by simp)
    · intro hx
      have h : x ∈ List.insertionSort (· ≤ ·) paths := hmem.2 hx
      apply List.count_pos_iff.1
      rw [hcount, if_pos h]
      exact Nat.zero_lt_one
  · rw [hbt]
    exact hD
  · intro paths' hperm
    have hsorteq : List.insertionSort (· ≤ ·) paths =
        List.insertionSort (· ≤ ·) paths' := by
      exact List.eq_of_perm_of_sorted
        (((List.perm_insertionSort _ paths).trans hperm).trans
          (List.perm_insertionSort _ paths').symm)
        (List.sorted_insertionSort _ paths)
        (List.sorted_insertionSort _ paths')
    unfold buildFileTree
    rw [hsorteq]

/-- Closed instance of `C5_buildFileTree_spec`: the permutation hypothesis
discharged on a concrete reordering. -/

theorem C5_buildFileTree_spec_witness :
    buildFileTree ["src/b.ts", "src/a.ts", "README.md"] =
      buildFileTree ["README.md", "src/a.ts", "src/b.ts"] :=
  (C5_buildFileTree_spec ["src/b.ts", "src/a.ts", "README.md"]).2.2.2.2
    ["README.md", "src/a.ts", "src/b.ts"] (by decide)

end Graphyy

